import Mathlib

/-! The rir bytecode compiler: a shallow embedding.

A verification development for the AST-to-bytecode lowering of
`rjit/src/rir/Compiler.cpp` and the slot table of `rjit/src/rir/Function.h`.

Conventions of the embedding:

* A C++ `assert` that fails is a fatal compilation failure; every function
  that can reach one returns `Option`, `none` being the failure.
* Mutable objects passed by reference (`FunctionHandle&`, `CodeStream&`) and
  the R heap cell written by `SET_NAMED` are threaded as explicit state.
* `fun_idx_t` is a 16 bit unsigned integer: a value converted to it is taken
  modulo `2 ^ 16`.
-/

namespace rir

/-! ## Immediate widths (BC_inc.h, lines 65-77) -/

/-- Width in bytes of `num_args_t` (`uint16_t`). -/
def sizeof_num_args_t : Nat := 2

/-- Width in bytes of `fun_idx_t` (`uint16_t`). -/
def sizeof_fun_idx_t : Nat := 2

/-- Width in bytes of `pool_idx_t` (`uint32_t`). -/
def sizeof_pool_idx_t : Nat := 4

/-- The constant `MAX_NUM_ARGS = 1L << (8 * sizeof(num_args_t))`. -/
def MAX_NUM_ARGS : Nat := 1 <<< (8 * sizeof_num_args_t)

/-- The constant `MAX_FUN_IDX = 1L << (8 * sizeof(fun_idx_t))`. -/
def MAX_FUN_IDX : Nat := 1 <<< (8 * sizeof_fun_idx_t)

/-- The constant `MAX_POOL_IDX = 1L << (8 * sizeof(pool_idx_t))`. -/
def MAX_POOL_IDX : Nat := 1 <<< (8 * sizeof_pool_idx_t)

/-- Conversion of a `size_t` to `fun_idx_t` (`uint16_t`): truncation. -/
def to_fun_idx_t (n : Nat) : Nat := n % 2 ^ (8 * sizeof_fun_idx_t)

/-! ## The AST (R's SEXP, as far as the compiler inspects it) -/

/-- Symbols (SYMSXP objects). The three marker objects of the R runtime that
the compiler compares by pointer are constructors of their own; `named` is any
other symbol, with its print name and its `DDVAL` header bit (the bit the
runtime sets on the symbols `..1`, `..2`, and so on; the markers do not carry
it). -/
inductive Symbol where
  | R_MissingArg
  | R_UnboundValue
  | R_DotsSymbol
  | named (name : String) (ddval : Bool)
  deriving DecidableEq, Repr

mutual
/-- AST nodes, by the type tag the compiler matches on. -/
inductive SEXP where
  /-- The object `R_NilValue` (NILSXP). -/
  | nil
  /-- A symbol (SYMSXP). -/
  | sym (s : Symbol)
  /-- A call (LANGSXP): callee and argument list. -/
  | lang (fn : SEXP) (args : RList)
  /-- A promise (PROMSXP): value, expression, environment. -/
  | prom (value : SEXP) (expr : SEXP) (env : SEXP)
  /-- Pre-compiled bytecode (BCODESXP). -/
  | bcode
  /-- Any other node: a literal constant, identified by its payload. -/
  | lit (v : Int)
/-- Pairlists as `RList` iterates them: each cell has a value (CAR) and a
tag (TAG), `R_NilValue` when the cell is untagged. -/
inductive RList where
  | nil
  | cons (car : SEXP) (tag : SEXP) (cdr : RList)
end

/-- The object `R_NilValue`. -/
def R_NilValue : SEXP := SEXP.nil

/-- The object `R_MissingArg`. -/
def R_MissingArg : SEXP := SEXP.sym Symbol.R_MissingArg

/-- The object `R_UnboundValue`. -/
def R_UnboundValue : SEXP := SEXP.sym Symbol.R_UnboundValue

/-- The object `R_DotsSymbol`. -/
def R_DotsSymbol : SEXP := SEXP.sym Symbol.R_DotsSymbol

/-- The header bit `DDVAL(x)`. -/
def DDVAL : SEXP → Bool
  | SEXP.sym (Symbol.named _ dd) => dd
  | _ => false

/-- Pointer test `x == R_NilValue`. -/
def SEXP.isNil : SEXP → Bool
  | SEXP.nil => true
  | _ => false

/-- Type test `TYPEOF(x) == SYMSXP`. -/
def SEXP.isSym : SEXP → Bool
  | SEXP.sym _ => true
  | _ => false

/-- Pointer test `x == R_MissingArg`. -/
def SEXP.isMissingArg : SEXP → Bool
  | SEXP.sym Symbol.R_MissingArg => true
  | _ => false

/-- Pointer test `x == R_UnboundValue`. -/
def SEXP.isUnboundValue : SEXP → Bool
  | SEXP.sym Symbol.R_UnboundValue => true
  | _ => false

/-- Pointer test `x == R_DotsSymbol`. -/
def SEXP.isDotsSymbol : SEXP → Bool
  | SEXP.sym Symbol.R_DotsSymbol => true
  | _ => false

/-- The elements of a pairlist, in order, as (value, tag) pairs. -/
def RList.toList : RList → List (SEXP × SEXP)
  | RList.nil => []
  | RList.cons car tag cdr => (car, tag) :: RList.toList cdr

/-- Number of cells of a pairlist. -/
def RList.length : RList → Nat
  | RList.nil => 0
  | RList.cons _ _ cdr => RList.length cdr + 1

/-- Build a pairlist from (value, tag) pairs. -/
def RList.ofList : List (SEXP × SEXP) → RList
  | [] => RList.nil
  | (car, tag) :: rest => RList.cons car tag (RList.ofList rest)

/-! ## The heap cell written by the compiler -/

/-- The `NAMED` marks of the heap, as the log of the writes made to them,
most recent first. -/
structure Heap where
  named : List (SEXP × Nat)

/-- The write `SET_NAMED(x, v)`. -/
def SET_NAMED (h : Heap) (x : SEXP) (v : Nat) : Heap :=
  Heap.mk ((x, v) :: h.named)

/-! ## Instructions, Code objects, the Function table -/

/-- Modelled from the spec: the instructions `Compiler.cpp` builds through the
`BC` factory functions (`BC.h` of that revision is not part of the sources).
Immediates are kept as the values they denote: a pool index as the pooled
object, the argument and name lists of `call` as lists. -/
inductive BC where
  | push (constant : SEXP)
  | ldfun (sym : SEXP)
  | ldvar (sym : SEXP)
  | ldddvar (sym : SEXP)
  | isfun
  | call (callArgs : List Nat) (names : List SEXP)
  | ret

/-- A sealed Code object: the AST it was compiled from, its instructions, and
the (instruction count, AST) records left by `addAst`. -/
structure Code where
  ast : SEXP
  bc : List BC
  astMap : List (Nat × SEXP)

/-- The class `Function` (Function.h): `std::vector<Code*> code`, a null
pointer being `none`. -/
structure Function where
  code : List (Option Code)

/-- The constructor `Function()`: no slot. -/
def Function.empty : Function := Function.mk []

/-- Number of slots, `code.size()`. -/
def Function.size (f : Function) : Nat := f.code.length

/-- The slot at an index: `none` out of range, `some none` reserved and
unfilled, `some (some c)` filled. -/
def Function.slot (f : Function) (i : Nat) : Option (Option Code) := f.code.get? i

/-- The method `Function::addCode` (Function.h, lines 16-19). -/
def Function.addCode (f : Function) (pos : Nat) (c : Code) : Option Function :=
  if pos < f.code.length then some (Function.mk (f.code.set pos (some c))) else none

/-- The method `Function::next` (Function.h, lines 21-25): push a null slot,
assert the size, return `code.size() - 1` converted to `fun_idx_t`. -/
def Function.next (f : Function) : Option (Function × Nat) :=
  let code := f.code ++ [none]
  if code.length < MAX_FUN_IDX then
    some (Function.mk code, to_fun_idx_t (code.length - 1))
  else none

/-- Modelled from the spec: the streaming builder `CodeStream` (its header is
not part of the sources). It remembers the slot reserved for it, the AST it
compiles, the instructions written so far and the `addAst` records. -/
structure CodeStream where
  insertPoint : Nat
  ast : SEXP
  code : List BC
  astMap : List (Nat × SEXP)

/-- Modelled from the spec: the constructor `CodeStream cs(function, ast)`
reserves the slot of the new Code with `next()` (reserve, then fill). -/
def CodeStream.create (function : Function) (ast : SEXP) : Option (Function × CodeStream) :=
  match function.next with
  | none => none
  | some (function1, idx) => some (function1, CodeStream.mk idx ast [] [])

/-- Modelled from the spec: `cs << bc` appends one instruction. -/
def CodeStream.emit (cs : CodeStream) (bc : BC) : CodeStream :=
  CodeStream.mk cs.insertPoint cs.ast (cs.code ++ [bc]) cs.astMap

/-- Modelled from the spec: `cs.addAst(ast)` attaches an AST to the
instruction written last. -/
def CodeStream.addAst (cs : CodeStream) (ast : SEXP) : CodeStream :=
  CodeStream.mk cs.insertPoint cs.ast cs.code (cs.astMap ++ [(cs.code.length, ast)])

/-- Modelled from the spec: `cs.finalize()` seals the instructions into a Code
object, fills the reserved slot with `addCode` and returns its index. -/
def CodeStream.finalize (function : Function) (cs : CodeStream) : Option (Function × Nat) :=
  match function.addCode cs.insertPoint (Code.mk cs.ast cs.code cs.astMap) with
  | none => none
  | some function1 => some (function1, cs.insertPoint)

/-! ## The compiler (Compiler.cpp) -/

/-- The function `compileGetvar` (Compiler.cpp, lines 66-74). -/
def compileGetvar (cs : CodeStream) (name : SEXP) : CodeStream :=
  if DDVAL name then cs.emit (BC.ldddvar name)
  else if name.isMissingArg then cs.emit (BC.push R_MissingArg)
  else cs.emit (BC.ldvar name)

/-- The function `compileConst` (Compiler.cpp, lines 77-80). -/
def compileConst (h : Heap) (cs : CodeStream) (constant : SEXP) : Heap × CodeStream :=
  (SET_NAMED h constant 2, cs.emit (BC.push constant))

/-- The name recorded for one argument (Compiler.cpp, lines 52-56). -/
def argName (arg : SEXP) (tag : SEXP) : SEXP :=
  if arg.isDotsSymbol then R_DotsSymbol
  else (if !tag.isNil then tag else R_NilValue)

mutual
/-- The function `compileCall` (Compiler.cpp, lines 26-63). -/
def compileCall (h : Heap) (parent : Function) (cs : CodeStream) (ast fn : SEXP)
    (args : RList) : Option (Heap × Function × CodeStream) :=
  let lhs : Option (Heap × Function × CodeStream) :=
    if fn.isSym then some (h, parent, cs.emit (BC.ldfun fn))
    else
      match compileExpr h parent cs fn with
      | none => none
      | some (h1, parent1, cs1) => some (h1, parent1, cs1.emit BC.isfun)
  match lhs with
  | none => none
  | some (h1, parent1, cs1) =>
    match compileArgs h1 parent1 args [] [] with
    | none => none
    | some (h2, parent2, callArgs, names) =>
      if callArgs.length < MAX_NUM_ARGS then
        some (h2, parent2, (cs1.emit (BC.call callArgs names)).addAst ast)
      else none
termination_by 2 * (sizeOf fn + sizeOf args) + 1
/-- The argument loop of `compileCall` (Compiler.cpp, lines 45-57). -/
def compileArgs (h : Heap) (parent : Function) (args : RList) (callArgs : List Nat)
    (names : List SEXP) : Option (Heap × Function × List Nat × List SEXP) :=
  match args with
  | RList.nil => some (h, parent, callArgs, names)
  | RList.cons arg tag rest =>
    match compilePromise h parent arg with
    | none => none
    | some (h1, parent1, prom) =>
      compileArgs h1 parent1 rest (callArgs ++ [prom]) (names ++ [argName arg tag])
termination_by 2 * sizeOf args
/-- The function `compileExpr` (Compiler.cpp, lines 82-108). -/
def compileExpr (h : Heap) (function : Function) (cs : CodeStream) (exp : SEXP) :
    Option (Heap × Function × CodeStream) :=
  match exp with
  | SEXP.lang fn args => compileCall h function cs exp fn args
  | SEXP.sym _ => some (h, function, compileGetvar cs exp)
  | SEXP.prom value _ env =>
    if env.isNil then
      if !value.isUnboundValue then
        some ((compileConst h cs value).1, function, (compileConst h cs value).2)
      else none
    else none
  | SEXP.bcode => none
  | _ => some ((compileConst h cs exp).1, function, (compileConst h cs exp).2)
termination_by 2 * sizeOf exp
/-- The function `compilePromise` (Compiler.cpp, lines 123-128). -/
def compilePromise (h : Heap) (function : Function) (exp : SEXP) :
    Option (Heap × Function × Nat) :=
  match CodeStream.create function exp with
  | none => none
  | some (function1, cs) =>
    match compileExpr h function1 cs exp with
    | none => none
    | some (h1, function2, cs1) =>
      match CodeStream.finalize function2 (cs1.emit BC.ret) with
      | none => none
      | some (function3, idx) => some (h1, function3, idx)
termination_by 2 * sizeOf exp + 1
end

/-- The loop of `compileFormals` (Compiler.cpp, lines 113-118); the constant
`MISSING_ARG_OFFSET`, defined outside the sources, is a parameter: the value
it has once stored in a `fun_idx_t`. -/
def compileFormals.loop (MISSING_ARG_OFFSET : Nat) (h : Heap) (fn : Function)
    (formals : RList) (res : List Nat) : Option (Heap × Function × List Nat) :=
  match formals with
  | RList.nil => some (h, fn, res)
  | RList.cons arg _ rest =>
    if !arg.isMissingArg then
      match compilePromise h fn arg with
      | none => none
      | some (h1, fn1, prom) =>
        compileFormals.loop MISSING_ARG_OFFSET h1 fn1 rest (res ++ [prom])
    else compileFormals.loop MISSING_ARG_OFFSET h fn rest (res ++ [MISSING_ARG_OFFSET])

/-- The function `compileFormals` (Compiler.cpp, lines 110-121). -/
def compileFormals (MISSING_ARG_OFFSET : Nat) (h : Heap) (fn : Function)
    (formals : RList) : Option (Heap × Function × List Nat) :=
  compileFormals.loop MISSING_ARG_OFFSET h fn formals []

/-- The compilation steps of `Compiler::finalize` (Compiler.cpp, lines
134-141): a fresh Function, the formals, then the body stream with its
trailing `ret`. The result is the heap, the Function, the formals' entries and
the index `cs.finalize()` returned for the body. -/
def Compiler.finalize.compile (MISSING_ARG_OFFSET : Nat) (h : Heap) (exp : SEXP)
    (formals : RList) : Option (Heap × Function × List Nat × Nat) :=
  match compileFormals MISSING_ARG_OFFSET h Function.empty formals with
  | none => none
  | some (h1, function1, formProm) =>
    match CodeStream.create function1 exp with
    | none => none
    | some (function2, cs) =>
      match compileExpr h1 function2 cs exp with
      | none => none
      | some (h2, function3, cs1) =>
        match CodeStream.finalize function3 (cs1.emit BC.ret) with
        | none => none
        | some (function4, idx) => some (h2, function4, formProm, idx)

/-! ## Specification-side definitions -/

mutual
/-- Number of promise Code objects the lowering of an expression creates: one
per call argument, at every nesting depth of callees and arguments. -/
def SEXP.numProms : SEXP → Nat
  | SEXP.lang fn args => SEXP.numProms fn + RList.numProms args
  | _ => 0
/-- Number of promise Code objects the lowering of an argument list creates. -/
def RList.numProms : RList → Nat
  | RList.nil => 0
  | RList.cons car _ cdr => 1 + SEXP.numProms car + RList.numProms cdr
end

/-- A slot holds promise code: it holds what some run of `compilePromise`
put at that index. -/
def PromSlot (f : Function) (j : Nat) : Prop :=
  ∃ exp h0 f0 h1 f1, compilePromise h0 f0 exp = some (h1, f1, j) ∧ f1.slot j = f.slot j

/-- The callee part of `compileCall` (Compiler.cpp, lines 32-38), on its own. -/
def compileCallee (h : Heap) (parent : Function) (cs : CodeStream) (fn : SEXP) :
    Option (Heap × Function × CodeStream) :=
  if fn.isSym then some (h, parent, cs.emit (BC.ldfun fn))
  else
    match compileExpr h parent cs fn with
    | none => none
    | some (h1, parent1, cs1) => some (h1, parent1, cs1.emit BC.isfun)

/-- The table grew by `n` slots, the old slots are untouched and the new ones
hold promise code. -/
def Grows (f f' : Function) (n : Nat) : Prop :=
  ∃ l, f'.code = f.code ++ l ∧ l.length = n ∧
    ∀ j, f.size ≤ j → j < f'.size → PromSlot f' j

/-- The `k`-fold call of `next()`, with the indices returned, in order. -/
def Function.nexts (f : Function) : Nat → Option (Function × List Nat)
  | 0 => some (f, [])
  | k + 1 =>
    match f.next with
    | none => none
    | some (f1, i) =>
      match Function.nexts f1 k with
      | none => none
      | some (f2, is) => some (f2, i :: is)

/-- A plain symbol, not one of the runtime's markers and not a `..N` symbol. -/
def SEXP.var (name : String) : SEXP := SEXP.sym (Symbol.named name false)

mutual
/-- A pre-compiled-bytecode node occurs in the expression: as the expression
itself, or in the callee or an argument of a call, at any nesting depth. -/
def SEXP.hasBcode : SEXP → Bool
  | SEXP.bcode => true
  | SEXP.lang fn args => SEXP.hasBcode fn || RList.hasBcode args
  | _ => false
/-- A pre-compiled-bytecode node occurs in one of the arguments. -/
def RList.hasBcode : RList → Bool
  | RList.nil => false
  | RList.cons car _ cdr => SEXP.hasBcode car || RList.hasBcode cdr
end

/-- A plain symbol or a literal constant: an expression lowered to a single
instruction. -/
def SEXP.isPlain : SEXP → Bool
  | SEXP.sym _ => true
  | SEXP.lit _ => true
  | SEXP.nil => true
  | _ => false

/-- Every argument of the list is a plain symbol or a literal. -/
def RList.allPlain : RList → Bool
  | RList.nil => true
  | RList.cons car _ cdr => SEXP.isPlain car && RList.allPlain cdr

/-- The argument list made of `n` copies of one argument. -/
def RList.replicate : Nat → SEXP → SEXP → RList
  | 0, _, _ => RList.nil
  | n + 1, car, tag => RList.cons car tag (RList.replicate n car tag)

/-- Slot `idx` holds the sealed lowering of `exp`: the Code whose instructions
are what `compileExpr` writes for `exp` into a fresh stream, in the Function
made of the slots before `idx` and the reserved slot `idx`, followed by `ret`. -/
def Function.HoldsLowering (f : Function) (exp : SEXP) (idx : Nat) : Prop :=
  ∃ h0 h1 f1 cs1,
    compileExpr h0 (Function.mk (f.code.take idx ++ [none])) (CodeStream.mk idx exp [] []) exp =
      some (h1, f1, cs1) ∧
    f.slot idx = some (some (Code.mk exp (cs1.code ++ [BC.ret]) cs1.astMap))

/-- Example: the argument list `(x, y = 1)`. -/
def Example.args : RList :=
  RList.cons (SEXP.var "x") R_NilValue (RList.cons (SEXP.lit 1) (SEXP.var "y") RList.nil)

/-- Example: the call `f(x, y = 1)`. -/
def Example.call : SEXP := SEXP.lang (SEXP.var "f") Example.args

/-- Example: a stream for `f(x, y = 1)` whose slot 0 is reserved. -/
def Example.stream : CodeStream := CodeStream.mk 0 Example.call [] []

/-- Example: the Function after lowering `f(x, y = 1)` into `Example.stream`. -/
def Example.function : Function :=
  Function.mk [none,
    some (Code.mk (SEXP.var "x") [BC.ldvar (SEXP.var "x"), BC.ret] []),
    some (Code.mk (SEXP.lit 1) [BC.push (SEXP.lit 1), BC.ret] [])]

/-- Example: the caller's stream after lowering `f(x, y = 1)`. -/
def Example.streamOut : CodeStream :=
  CodeStream.mk 0 Example.call
    [BC.ldfun (SEXP.var "f"), BC.call [1, 2] [R_NilValue, SEXP.var "y"]]
    [(2, Example.call)]

/-- The entries `compileFormals` is expected to return when the Function has
`base` slots: `MISSING_ARG_OFFSET` for a parameter without default, and
otherwise the next free index, the parameter then taking one slot for its
default and one for each call argument nested in it. -/
def formalEntries (MISSING_ARG_OFFSET : Nat) : Nat → RList → List Nat
  | _, RList.nil => []
  | base, RList.cons arg _ rest =>
    if arg.isMissingArg then
      MISSING_ARG_OFFSET :: formalEntries MISSING_ARG_OFFSET base rest
    else base :: formalEntries MISSING_ARG_OFFSET (base + (1 + arg.numProms)) rest

/-- The number of slots a formals list takes: none for a parameter without
default, and otherwise one for the default and one for each call argument
nested in it. -/
def formalSlots : RList → Nat
  | RList.nil => 0
  | RList.cons arg _ rest =>
    (if arg.isMissingArg then 0 else 1 + arg.numProms) + formalSlots rest

/-- Example: the formals `(a = 1, b)`, `b` without default. -/
def Example.formals : RList :=
  RList.cons (SEXP.lit 1) (SEXP.var "a") (RList.cons R_MissingArg (SEXP.var "b") RList.nil)

/-- Example: the formals `(a = g(x))`. -/
def Example.formalsCall : RList :=
  RList.cons (SEXP.lang (SEXP.var "g") (RList.cons (SEXP.var "x") R_NilValue RList.nil))
    (SEXP.var "a") RList.nil

/-- One operation on a Function: `next()` or `addCode(pos, c)`. -/
inductive Function.Op where
  | next
  | addCode (pos : Nat) (c : Code)

/-- Run a sequence of operations, each of which has to succeed; the result is
the Function and the indices the `next()` calls returned, in order. -/
def Function.run (f : Function) : List Function.Op → Option (Function × List Nat)
  | [] => some (f, [])
  | Function.Op.next :: ops =>
    match f.next with
    | none => none
    | some (f1, i) =>
      match Function.run f1 ops with
      | none => none
      | some (f2, is) => some (f2, i :: is)
  | Function.Op.addCode pos c :: ops =>
    match f.addCode pos c with
    | none => none
    | some f1 => Function.run f1 ops

/-! ## The traversal framework (framework.h) -/

/-- The class `Dispatcher` (framework.h, lines 19-52): the flag `success_`
of the base class, and the state `σ` a subclass adds. -/
structure Dispatcher (σ : Type) where
  state : σ
  success_ : Bool

/-- The method `Dispatcher::fail` (framework.h, lines 41-43). -/
def Dispatcher.fail {σ : Type} (d : Dispatcher σ) : Dispatcher σ :=
  Dispatcher.mk d.state false

/-- The body of an override of the pure virtual `doDispatch`, as a run that
returns: everything a member function of a subclass can do with the base
class. It ends; or calls `fail()` and goes on; or assigns the protected member
`success_` directly and goes on; or calls the public `dispatch` again, whose
nested run of `doDispatch` is `inner`, and goes on; or works on the subclass
state and the cursor, where it can read `success_`, and goes on, its
continuation chosen from what it sees there. -/
inductive DoDispatch (σ Cursor : Type) where
  | done
  | fail (next : DoDispatch σ Cursor)
  | assign (b : Bool) (next : DoDispatch σ Cursor)
  | dispatch (inner next : DoDispatch σ Cursor)
  | step (k : Bool → σ → Cursor → σ × Cursor)
      (next : Bool → σ → Cursor → DoDispatch σ Cursor)

/-- Run the body of `doDispatch` on a dispatcher and a cursor. A nested call of
`dispatch` does what `Dispatcher::dispatch` does: it sets `success_`, runs the
nested body and leaves the flag as that run left it. -/
def DoDispatch.exec {σ Cursor : Type} :
    DoDispatch σ Cursor → Dispatcher σ → Cursor → Dispatcher σ × Cursor
  | DoDispatch.done, d, cursor => (d, cursor)
  | DoDispatch.fail next, d, cursor => DoDispatch.exec next d.fail cursor
  | DoDispatch.assign b next, d, cursor =>
    DoDispatch.exec next (Dispatcher.mk d.state b) cursor
  | DoDispatch.dispatch inner next, d, cursor =>
    DoDispatch.exec next (DoDispatch.exec inner (Dispatcher.mk d.state true) cursor).1
      (DoDispatch.exec inner (Dispatcher.mk d.state true) cursor).2
  | DoDispatch.step k next, d, cursor =>
    DoDispatch.exec (next d.success_ d.state cursor)
      (Dispatcher.mk (k d.success_ d.state cursor).1 d.success_) (k d.success_ d.state cursor).2

/-- Whether the run of the body from a dispatcher and a cursor comes to a call
of `fail()`, in the body itself or in a nested dispatch. -/
def DoDispatch.calledFail {σ Cursor : Type} :
    DoDispatch σ Cursor → Dispatcher σ → Cursor → Bool
  | DoDispatch.done, _, _ => false
  | DoDispatch.fail _, _, _ => true
  | DoDispatch.assign b next, d, cursor =>
    DoDispatch.calledFail next (Dispatcher.mk d.state b) cursor
  | DoDispatch.dispatch inner next, d, cursor =>
    DoDispatch.calledFail inner (Dispatcher.mk d.state true) cursor ||
      DoDispatch.calledFail next (DoDispatch.exec inner (Dispatcher.mk d.state true) cursor).1
        (DoDispatch.exec inner (Dispatcher.mk d.state true) cursor).2
  | DoDispatch.step k next, d, cursor =>
    DoDispatch.calledFail (next d.success_ d.state cursor)
      (Dispatcher.mk (k d.success_ d.state cursor).1 d.success_) (k d.success_ d.state cursor).2

/-- The override writes `success_` through `fail()` only: on no path does it
assign the member directly or call `dispatch` again. -/
def DoDispatch.failOnly {σ Cursor : Type} : DoDispatch σ Cursor → Prop
  | DoDispatch.done => True
  | DoDispatch.fail next => DoDispatch.failOnly next
  | DoDispatch.assign _ _ => False
  | DoDispatch.dispatch _ _ => False
  | DoDispatch.step _ next => ∀ b s cursor, DoDispatch.failOnly (next b s cursor)

/-- The method `Dispatcher::dispatch` (framework.h, lines 28-32), for a given
override of `doDispatch`: the value returned, the dispatcher and the cursor
afterwards. -/
def Dispatcher.dispatch {σ Cursor : Type} (doDispatch : DoDispatch σ Cursor)
    (d : Dispatcher σ) (cursor : Cursor) : Bool × Dispatcher σ × Cursor :=
  let d1 := Dispatcher.mk d.state true
  let r := doDispatch.exec d1 cursor
  (r.1.success_, r.1, r.2)

/-- Example: an override that advances the cursor and calls `fail()` when the
cursor was odd. -/
def Example.doDispatch : DoDispatch Nat Nat :=
  DoDispatch.step (fun _ s cursor => (s + 1, cursor + 1))
    (fun _ _ cursor =>
      if cursor % 2 = 1 then DoDispatch.fail DoDispatch.done else DoDispatch.done)

/-- Example: an override that counts its runs in the subclass state; on its
first run it calls `fail()` and then `dispatch` again, and the nested run, the
second, only counts. -/
def Example.reenter : DoDispatch Nat Nat :=
  DoDispatch.step (fun _ s cursor => (s + 1, cursor))
    (fun _ s _ =>
      if s = 0 then
        DoDispatch.fail
          (DoDispatch.dispatch
            (DoDispatch.step (fun _ s cursor => (s + 1, cursor)) (fun _ _ _ => DoDispatch.done))
            DoDispatch.done)
      else DoDispatch.done)

/-- Example: an override that calls `fail()` and then sets `success_` itself. -/
def Example.failThenAssign : DoDispatch Nat Nat :=
  DoDispatch.fail (DoDispatch.assign true DoDispatch.done)

/-! ## The rest of `Compiler::finalize` -/

/-- The value of a parameter in a formal parameter list: an AST (among them
the sentinel `R_MissingArg`), or the Code object `opt.codeAtOffset(prom)` cast
to `SEXP`, `none` when there is no Code at that index. -/
inductive FormalValue where
  | sexp (s : SEXP)
  | code (c : Option Code)

/-- The result `CompilerRes` of `Compiler::finalize`: the Function and the
formal parameter list, as (value, tag) pairs. -/
structure CompilerRes where
  bc : Function
  formals : List (FormalValue × SEXP)

/-- The accessor `TAG` on a pairlist; `TAG(R_NilValue)` is `R_NilValue`. -/
def RList.TAG : RList → SEXP
  | RList.nil => R_NilValue
  | RList.cons _ tag _ => tag

/-- The accessor `CDR` on a pairlist; `CDR(R_NilValue)` is `R_NilValue`. -/
def RList.CDR : RList → RList
  | RList.nil => RList.nil
  | RList.cons _ _ cdr => cdr

/-- The reassembly loop of `Compiler::finalize` (Compiler.cpp, lines 147-164):
the list `formout`, built from the recorded entries `formProm` and the tags of
the input formals `formin`. -/
def Compiler.finalize.formout (MISSING_ARG_OFFSET : Nat) (opt : Function) :
    List Nat → RList → List (FormalValue × SEXP)
  | [], _ => []
  | prom :: rest, formin =>
    ((if prom = MISSING_ARG_OFFSET then FormalValue.sexp R_MissingArg
      else FormalValue.code (opt.slot prom).join), formin.TAG) ::
      Compiler.finalize.formout MISSING_ARG_OFFSET opt rest formin.CDR

/-- The input formals, as the formal parameter list of a `CompilerRes`. -/
def RList.toFormals (formals : RList) : List (FormalValue × SEXP) :=
  formals.toList.map (fun p => (FormalValue.sexp p.1, p.2))

/-- The function `Compiler::finalize` (Compiler.cpp, lines 131-170). The
verifier `vefifyFunctionLayout` and the optimizer `Optimizer::optimize` are
outside the sources and are parameters; a failed verification is fatal. The
list `formout` is built and not returned: the result carries `formals`. -/
def Compiler.finalize (MISSING_ARG_OFFSET : Nat) (vefifyFunctionLayout : Function → Bool)
    (optimize : Function → Function) (h : Heap) (exp : SEXP) (formals : RList) :
    Option (Heap × CompilerRes) :=
  match Compiler.finalize.compile MISSING_ARG_OFFSET h exp formals with
  | none => none
  | some (h1, function, formProm, _) =>
    if vefifyFunctionLayout function then
      let opt := optimize function
      if vefifyFunctionLayout opt then
        let _formout := Compiler.finalize.formout MISSING_ARG_OFFSET opt formProm formals
        some (h1, CompilerRes.mk opt formals.toFormals /- formout -/)
      else none
    else none

/-! ## Reading the sharing marks -/

deriving instance DecidableEq for SEXP, RList

/-- The mark `NAMED(x)` as far as the log knows it: the value of the most
recent `SET_NAMED` on `x`, `none` when `x` was not written (the mark is then
whatever it was before). -/
def NAMED (h : Heap) (x : SEXP) : Option Nat :=
  (h.named.find? (fun p => decide (p.1 = x))).map Prod.snd

/-- A node of the last case of `compileExpr`: not a call, not a symbol, not an
embedded-value node, not a pre-compiled node. -/
def SEXP.isConst : SEXP → Bool
  | SEXP.lang _ _ => false
  | SEXP.sym _ => false
  | SEXP.prom _ _ _ => false
  | SEXP.bcode => false
  | _ => true

/-! ## The instruction codec (BC_inc.h) -/

/-- The enumeration `BC_t` (BC_inc.h, lines 17-60). -/
inductive BC_t where
  | invalid
  | push
  | getfun
  | getvar
  | call
  | call_name
  | mkprom
  | mkclosure
  | ret
  | force
  | drop
  | num_of
  deriving DecidableEq, Repr

/-- The value of an enumerator of `BC_t` as a `uint8_t`. -/
def BC_t.toByte : BC_t → Nat
  | BC_t.invalid => 0
  | BC_t.push => 1
  | BC_t.getfun => 2
  | BC_t.getvar => 3
  | BC_t.call => 4
  | BC_t.call_name => 5
  | BC_t.mkprom => 6
  | BC_t.mkclosure => 7
  | BC_t.ret => 8
  | BC_t.force => 9
  | BC_t.drop => 10
  | BC_t.num_of => 11

/-- Modelled from the spec: the opcode a byte stands for when decoding, the
marker `invalid` for a byte that is no instruction. -/
def BC_t.ofByte : Nat → BC_t
  | 1 => BC_t.push
  | 2 => BC_t.getfun
  | 3 => BC_t.getvar
  | 4 => BC_t.call
  | 5 => BC_t.call_name
  | 6 => BC_t.mkprom
  | 7 => BC_t.mkclosure
  | 8 => BC_t.ret
  | 9 => BC_t.force
  | 10 => BC_t.drop
  | _ => BC_t.invalid

/-- The field of the union `immediate_t` (BC_inc.h, lines 69-73) an opcode
uses, if any. -/
inductive ImmKind where
  | none
  | pool
  | funIdx
  | numArgs
  deriving DecidableEq, Repr

/-- Width in bytes of the immediate of each kind. -/
def ImmKind.width : ImmKind → Nat
  | ImmKind.none => 0
  | ImmKind.pool => sizeof_pool_idx_t
  | ImmKind.funIdx => sizeof_fun_idx_t
  | ImmKind.numArgs => sizeof_num_args_t

/-- The immediate kind of each opcode, from the comments of `BC_t`. -/
def BC_t.immKind : BC_t → ImmKind
  | BC_t.push => ImmKind.pool
  | BC_t.getfun => ImmKind.pool
  | BC_t.getvar => ImmKind.pool
  | BC_t.call => ImmKind.numArgs
  | BC_t.call_name => ImmKind.pool
  | BC_t.mkprom => ImmKind.funIdx
  | BC_t.mkclosure => ImmKind.funIdx
  | _ => ImmKind.none

/-- The class `BC` of BC_inc.h (lines 85-117): an opcode and the value of the
active field of its immediate, 0 when it has none. -/
structure BC_inc.BC where
  bc : BC_t
  immediate : Nat
  deriving DecidableEq, Repr

/-- The calls of the factory functions of `BC` (BC_inc.h, lines 107-115). A
constant or symbol argument stands as the pool index it was given; arguments
are converted to the width of their parameter type. -/
inductive BC_inc.Factory where
  | call (numArgs : Nat)
  | call_name (names : Nat)
  | push (constant : Nat)
  | getfun (sym : Nat)
  | getvar (sym : Nat)
  | mkprom (prom : Nat)
  | ret
  | drop
  | force

/-- Modelled from the spec: the instruction a factory call makes. -/
def BC_inc.Factory.make : BC_inc.Factory → BC_inc.BC
  | BC_inc.Factory.call numArgs => BC_inc.BC.mk BC_t.call (numArgs % 2 ^ (8 * sizeof_num_args_t))
  | BC_inc.Factory.call_name names =>
    BC_inc.BC.mk BC_t.call_name (names % 2 ^ (8 * sizeof_pool_idx_t))
  | BC_inc.Factory.push constant => BC_inc.BC.mk BC_t.push (constant % 2 ^ (8 * sizeof_pool_idx_t))
  | BC_inc.Factory.getfun sym => BC_inc.BC.mk BC_t.getfun (sym % 2 ^ (8 * sizeof_pool_idx_t))
  | BC_inc.Factory.getvar sym => BC_inc.BC.mk BC_t.getvar (sym % 2 ^ (8 * sizeof_pool_idx_t))
  | BC_inc.Factory.mkprom prom => BC_inc.BC.mk BC_t.mkprom (prom % 2 ^ (8 * sizeof_fun_idx_t))
  | BC_inc.Factory.ret => BC_inc.BC.mk BC_t.ret 0
  | BC_inc.Factory.drop => BC_inc.BC.mk BC_t.drop 0
  | BC_inc.Factory.force => BC_inc.BC.mk BC_t.force 0

/-- The `w` low bytes of a value, least significant first. -/
def leBytes : Nat → Nat → List Nat
  | 0, _ => []
  | w + 1, v => v % 256 :: leBytes w (v / 256)

/-- The value of a sequence of bytes, least significant first. -/
def ofLeBytes : List Nat → Nat
  | [] => 0
  | b :: bs => b + 256 * ofLeBytes bs

/-- Modelled from the spec: `BC::size`, the opcode byte and the immediate. -/
def BC_inc.BC.size (i : BC_inc.BC) : Nat := 1 + i.bc.immKind.width

/-- Modelled from the spec: `BC::write` appends the opcode byte and the bytes
of the immediate to the buffer. -/
def BC_inc.BC.write (i : BC_inc.BC) (buffer : List Nat) : List Nat :=
  buffer ++ i.bc.toByte :: leBytes i.bc.immKind.width i.immediate

/-- Modelled from the spec: `BC::read` decodes the instruction at the cursor. -/
def BC_inc.BC.read (pc : List Nat) : BC_inc.BC :=
  match pc with
  | [] => BC_inc.BC.mk BC_t.invalid 0
  | op :: rest =>
    BC_inc.BC.mk (BC_t.ofByte op) (ofLeBytes (rest.take (BC_t.ofByte op).immKind.width))

/-- Modelled from the spec: `BC::advance` decodes the instruction at the
cursor and moves the cursor past it. -/
def BC_inc.BC.advance (pc : List Nat) : BC_inc.BC × List Nat :=
  (BC_inc.BC.read pc, pc.drop (BC_inc.BC.read pc).size)

/-! ## What the lowering writes -/

/-- The instruction `compileGetvar` emits for a symbol (Compiler.cpp, lines
67-73). -/
def getvarBC (name : SEXP) : BC :=
  if DDVAL name then BC.ldddvar name
  else if name.isMissingArg then BC.push R_MissingArg
  else BC.ldvar name

/-- The instruction is `ret`. -/
def BC.isRet : BC → Bool
  | BC.ret => true
  | _ => false

mutual
/-- The expressions a lowering makes promise Code for: every call argument, at
every nesting depth of callees and arguments. -/
def SEXP.promArgs : SEXP → List SEXP
  | SEXP.lang fn args => SEXP.promArgs fn ++ RList.promArgs args
  | _ => []
/-- The expressions the lowering of an argument list makes promise Code for. -/
def RList.promArgs : RList → List SEXP
  | RList.nil => []
  | RList.cons car _ cdr => car :: (SEXP.promArgs car ++ RList.promArgs cdr)
end

/-- The instruction sequences the lowering of an expression can append to a
stream: one instruction for a symbol, an embedded value or a constant; for a
call the callee's code (`ldfun`, or the callee's own sequence and `isfun`) and
one `call` with as many indices as the call has arguments. -/
inductive Lowered : SEXP → List BC → Prop where
  | sym (s : Symbol) : Lowered (SEXP.sym s) [getvarBC (SEXP.sym s)]
  | prom (value expr env : SEXP) : Lowered (SEXP.prom value expr env) [BC.push value]
  | const (e : SEXP) (hc : e.isConst = true) : Lowered e [BC.push e]
  | callSym (fn : SEXP) (args : RList) (callArgs : List Nat) (names : List SEXP)
      (hs : fn.isSym = true) (hl : callArgs.length = args.length) :
      Lowered (SEXP.lang fn args) [BC.ldfun fn, BC.call callArgs names]
  | callExpr (fn : SEXP) (args : RList) (code : List BC) (callArgs : List Nat)
      (names : List SEXP) (hs : fn.isSym = false) (hfn : Lowered fn code)
      (hl : callArgs.length = args.length) :
      Lowered (SEXP.lang fn args) (code ++ [BC.isfun, BC.call callArgs names])

/-- Every slot added from `f` to `f'` holds sealed Code: the instruction
sequence of one of the expressions `srcs`, followed by `ret`. -/
def SlotsLowered (f f' : Function) (srcs : List SEXP) : Prop :=
  ∀ j, f.size ≤ j → j < f'.size →
    ∃ arg code astMap, arg ∈ srcs ∧ Lowered arg code ∧
      f'.slot j = some (some (Code.mk arg (code ++ [BC.ret]) astMap))

/-- The first `k` cells of a pairlist. -/
def RList.take : Nat → RList → RList
  | 0, _ => RList.nil
  | _ + 1, RList.nil => RList.nil
  | k + 1, RList.cons car tag cdr => RList.cons car tag (RList.take k cdr)

/-! ## The stack check (CodeVerifier.h) -/

/-- The number of operands an instruction takes from the operand stack: only
`call` takes any. How many the `call` of Compiler.cpp takes, the sources do
not say: the check is declared in CodeVerifier.h without a body, this `call`
carries its arguments as immediates (promise indices), and the row of the
table in the spec, "call(n): -n, then +1 (replaces callee+args with result)",
was written for an instruction with an argument count. The number taken for a
call with `n` arguments is therefore the parameter `callPops`: `fun n => n`
is the row as worded, `fun n => n + 1` the callee with the arguments,
`fun _ => 1` the callee alone. -/
def BC.pops (callPops : Nat → Nat) : BC → Nat
  | BC.call callArgs _ => callPops callArgs.length
  | _ => 0

/-- The number of operands an instruction leaves on the operand stack, by the
table of the spec: one for a push, a function or variable lookup and the
result of a call, none for the callable check and for `ret`. -/
def BC.pushes : BC → Nat
  | BC.push _ => 1
  | BC.ldfun _ => 1
  | BC.ldvar _ => 1
  | BC.ldddvar _ => 1
  | BC.call _ _ => 1
  | BC.isfun => 0
  | BC.ret => 0

/-- The linear pass of the stack check: from a depth and the maximum so far,
the depth and the maximum after the instructions; `none` when an instruction
would take the depth below zero. -/
def stackRun (callPops : Nat → Nat) : Nat → Nat → List BC → Option (Nat × Nat)
  | depth, top, [] => some (depth, top)
  | depth, top, bc :: rest =>
    if depth < bc.pops callPops then none
    else
      stackRun callPops (depth - bc.pops callPops + bc.pushes)
        (max top (depth - bc.pops callPops + bc.pushes)) rest

/-- Modelled from the spec: `CodeVerifier::calculateAndVerifyStack`, declared
in CodeVerifier.h, for the operand stack. It fails when the sequence does not
end in `ret` or the depth would go below zero, and gives the maximum depth
otherwise. -/
def calculateAndVerifyStack (callPops : Nat → Nat) (code : List BC) : Option Nat :=
  match code.getLast? with
  | some BC.ret => (stackRun callPops 0 0 code).map Prod.snd
  | _ => none

mutual
/-- Every call in the expression, at every nesting depth of callees and
arguments, has a number of arguments that `ok` accepts. -/
def SEXP.allCalls (ok : Nat → Bool) : SEXP → Bool
  | SEXP.lang fn args =>
    ok (RList.length args) && (SEXP.allCalls ok fn && RList.allCalls ok args)
  | _ => true
/-- Every call in the arguments has a number of arguments that `ok` accepts. -/
def RList.allCalls (ok : Nat → Bool) : RList → Bool
  | RList.nil => true
  | RList.cons car _ cdr => SEXP.allCalls ok car && RList.allCalls ok cdr
end

theorem MAX_FUN_IDX_eq : MAX_FUN_IDX = 65536 := by decide

theorem MAX_NUM_ARGS_eq : MAX_NUM_ARGS = 65536 := by decide

theorem Function.next_eq_some (f f' : Function) (i : Nat) :
    f.next = some (f', i) ↔
      f.size + 1 < MAX_FUN_IDX ∧ f' = Function.mk (f.code ++ [none]) ∧ i = f.size := by
  unfold Function.next Function.size
  simp only [List.length_append, List.length_singleton, Nat.add_sub_cancel]
  by_cases hlt : f.code.length + 1 < MAX_FUN_IDX
  · have hmod : to_fun_idx_t f.code.length = f.code.length := by
      unfold to_fun_idx_t sizeof_fun_idx_t
      rw [MAX_FUN_IDX_eq] at hlt
      exact Nat.mod_eq_of_lt (by norm_num; omega)
    simp only [hlt, if_true, Option.some.injEq, Prod.mk.injEq, hmod, true_and]
    constructor
    · rintro ⟨h1, h2⟩; exact ⟨h1.symm, h2.symm⟩
    · rintro ⟨h1, h2⟩; exact ⟨h1.symm, h2.symm⟩
  · simp [hlt]

theorem Function.next_eq_none (f : Function) :
    f.next = none ↔ MAX_FUN_IDX ≤ f.size + 1 := by
  unfold Function.next Function.size
  simp only [List.length_append, List.length_singleton]
  by_cases hlt : f.code.length + 1 < MAX_FUN_IDX
  · simp [hlt]
  · simp only [hlt, if_false, true_iff]; omega

theorem CodeStream.create_eq_some (f f' : Function) (ast : SEXP) (cs : CodeStream) :
    CodeStream.create f ast = some (f', cs) ↔
      f.size + 1 < MAX_FUN_IDX ∧ f' = Function.mk (f.code ++ [none]) ∧
        cs = CodeStream.mk f.size ast [] [] := by
  unfold CodeStream.create
  cases hn : f.next with
  | none =>
    rw [Function.next_eq_none] at hn
    constructor
    · intro hc; cases hc
    · rintro ⟨h1, _, _⟩; omega
  | some p =>
    obtain ⟨g, i⟩ := p
    rw [Function.next_eq_some] at hn
    obtain ⟨h1, h2, h3⟩ := hn
    subst h2 h3
    simp only [Option.some.injEq, Prod.mk.injEq, h1, true_and]
    constructor
    · rintro ⟨a, b⟩; exact ⟨a.symm, b.symm⟩
    · rintro ⟨a, b⟩; exact ⟨a.symm, b.symm⟩

theorem CodeStream.finalize_eq_some (f f' : Function) (cs : CodeStream) (i : Nat) :
    CodeStream.finalize f cs = some (f', i) ↔
      cs.insertPoint < f.size ∧
        f' = Function.mk (f.code.set cs.insertPoint (some (Code.mk cs.ast cs.code cs.astMap))) ∧
        i = cs.insertPoint := by
  unfold CodeStream.finalize Function.addCode Function.size
  by_cases hlt : cs.insertPoint < f.code.length
  · simp only [hlt, if_true, Option.some.injEq, Prod.mk.injEq, true_and]
    constructor
    · rintro ⟨a, b⟩; exact ⟨a.symm, b.symm⟩
    · rintro ⟨a, b⟩; exact ⟨a.symm, b.symm⟩
  · simp [hlt]

/-! ## Unfolding lemmas -/

theorem compileCall_eq_some (h : Heap) (f : Function) (cs : CodeStream) (ast fn : SEXP)
    (args : RList) (h' : Heap) (f' : Function) (cs' : CodeStream) :
    compileCall h f cs ast fn args = some (h', f', cs') ↔
      ∃ h1 f1 cs1 callArgs names,
        compileCallee h f cs fn = some (h1, f1, cs1) ∧
        compileArgs h1 f1 args [] [] = some (h', f', callArgs, names) ∧
        callArgs.length < MAX_NUM_ARGS ∧
        cs' = (cs1.emit (BC.call callArgs names)).addAst ast := by
  constructor
  · intro H
    rw [compileCall] at H
    split at H
    · cases H
    · rename_i h1 f1 cs1 hl
      split at H
      · cases H
      · rename_i h2 f2 callArgs names ha
        split_ifs at H with hlt
        simp only [Option.some.injEq, Prod.mk.injEq] at H
        obtain ⟨a, b, c⟩ := H
        subst a b c
        exact ⟨h1, f1, cs1, callArgs, names, hl, ha, hlt, rfl⟩
  · rintro ⟨h1, f1, cs1, callArgs, names, e1, e2, e3, e4⟩
    rw [compileCall]
    unfold compileCallee at e1
    rw [e1]
    simp only [e2, e3, if_true, e4]

theorem compileCall_eq_none_of_callee (h : Heap) (f : Function) (cs : CodeStream)
    (ast fn : SEXP) (args : RList) (hc : compileCallee h f cs fn = none) :
    compileCall h f cs ast fn args = none := by
  rw [compileCall]
  unfold compileCallee at hc
  rw [hc]

theorem compileArgs_nil (h : Heap) (f : Function) (callArgs : List Nat) (names : List SEXP) :
    compileArgs h f RList.nil callArgs names = some (h, f, callArgs, names) := by
  rw [compileArgs]

theorem compileArgs_cons (h : Heap) (f : Function) (arg tag : SEXP) (rest : RList)
    (callArgs : List Nat) (names : List SEXP) :
    compileArgs h f (RList.cons arg tag rest) callArgs names =
      match compilePromise h f arg with
      | none => none
      | some (h1, f1, prom) =>
        compileArgs h1 f1 rest (callArgs ++ [prom]) (names ++ [argName arg tag]) := by
  rw [compileArgs]

theorem compileArgs_cons_eq_some (h : Heap) (f : Function) (arg tag : SEXP) (rest : RList)
    (callArgs : List Nat) (names : List SEXP) (r : Heap × Function × List Nat × List SEXP) :
    compileArgs h f (RList.cons arg tag rest) callArgs names = some r ↔
      ∃ h1 f1 prom, compilePromise h f arg = some (h1, f1, prom) ∧
        compileArgs h1 f1 rest (callArgs ++ [prom]) (names ++ [argName arg tag]) = some r := by
  rw [compileArgs_cons]
  constructor
  · intro H
    split at H
    · cases H
    · rename_i h1 f1 prom hp
      exact ⟨h1, f1, prom, hp, H⟩
  · rintro ⟨h1, f1, prom, hp, H⟩
    rw [hp]
    exact H

theorem compilePromise_eq_some (h : Heap) (f : Function) (e : SEXP) (h' : Heap)
    (f' : Function) (idx : Nat) :
    compilePromise h f e = some (h', f', idx) ↔
      ∃ f2 cs1, f.size + 1 < MAX_FUN_IDX ∧
        compileExpr h (Function.mk (f.code ++ [none])) (CodeStream.mk f.size e [] []) e =
          some (h', f2, cs1) ∧
        CodeStream.finalize f2 (cs1.emit BC.ret) = some (f', idx) := by
  constructor
  · intro H
    rw [compilePromise] at H
    split at H
    · cases H
    · rename_i f1 cs hc
      rw [CodeStream.create_eq_some] at hc
      obtain ⟨hlt, hf1, hcs⟩ := hc
      subst hf1 hcs
      split at H
      · cases H
      · rename_i h1 f2 cs1 he
        split at H
        · cases H
        · rename_i f3 i hfin
          simp only [Option.some.injEq, Prod.mk.injEq] at H
          obtain ⟨a, b, c⟩ := H
          subst a b c
          exact ⟨f2, cs1, hlt, he, hfin⟩
  · rintro ⟨f2, cs1, hlt, he, hfin⟩
    rw [compilePromise]
    have hc : CodeStream.create f e = some (_, _) :=
      (CodeStream.create_eq_some f _ e _).2 ⟨hlt, rfl, rfl⟩
    rw [hc]
    simp only [he, hfin]

/-! ## Growth of the Function table -/

theorem PromSlot.of_slot_eq {f f' : Function} {j : Nat} (hp : PromSlot f j)
    (hs : f'.slot j = f.slot j) : PromSlot f' j := by
  obtain ⟨exp, h0, f0, h1, f1, hc, he⟩ := hp
  exact ⟨exp, h0, f0, h1, f1, hc, he.trans hs.symm⟩

theorem Grows.refl (f : Function) : Grows f f 0 := by
  refine ⟨[], by simp, rfl, ?_⟩
  intro j h1 h2
  omega

theorem Grows.size_eq {f f' : Function} {n : Nat} (hg : Grows f f' n) :
    f'.size = f.size + n := by
  obtain ⟨l, hl, hn, _⟩ := hg
  simp [Function.size, hl, hn]

theorem Grows.slot_eq {f f' : Function} {n : Nat} (hg : Grows f f' n) {j : Nat}
    (hj : j < f.size) : f'.slot j = f.slot j := by
  obtain ⟨l, hl, _, _⟩ := hg
  unfold Function.size at hj
  simp [Function.slot, hl, List.getElem?_append_left hj]

theorem Grows.trans {f f1 f2 : Function} {n m : Nat} (h1 : Grows f f1 n)
    (h2 : Grows f1 f2 m) : Grows f f2 (n + m) := by
  have hs1 := h1.size_eq
  have hs2 := h2.size_eq
  obtain ⟨l1, hl1, hn1, hp1⟩ := h1
  obtain ⟨l2, hl2, hn2, hp2⟩ := id h2
  refine ⟨l1 ++ l2, by rw [hl2, hl1, List.append_assoc], by simp [hn1, hn2], ?_⟩
  intro j hj1 hj2
  by_cases hlt : j < f1.size
  · exact (hp1 j hj1 hlt).of_slot_eq (h2.slot_eq hlt)
  · exact hp2 j (by omega) hj2

theorem SEXP.numProms_of_isSym {fn : SEXP} (hs : fn.isSym = true) : fn.numProms = 0 := by
  cases fn <;> simp_all [SEXP.isSym, SEXP.numProms]

theorem Function.set_reserved (a : List (Option Code)) (l : List (Option Code)) (c : Code) :
    (a ++ [none] ++ l).set a.length (some c) = a ++ (some c :: l) := by
  rw [List.append_assoc, List.set_append_right _ _ (le_refl _)]
  simp

theorem compileGetvar_insertPoint (cs : CodeStream) (name : SEXP) :
    (compileGetvar cs name).insertPoint = cs.insertPoint := by
  unfold compileGetvar; split_ifs <;> rfl

theorem compileGetvar_ast (cs : CodeStream) (name : SEXP) :
    (compileGetvar cs name).ast = cs.ast := by
  unfold compileGetvar; split_ifs <;> rfl

theorem compileGetvar_code (cs : CodeStream) (name : SEXP) :
    ∃ bc, (compileGetvar cs name).code = cs.code ++ [bc] := by
  unfold compileGetvar; split_ifs <;> exact ⟨_, rfl⟩

/-- Lowering an expression that is not a call leaves the table as it is. -/
theorem compileExpr_leaf (h : Heap) (f : Function) (cs : CodeStream) (e : SEXP)
    (h' : Heap) (f' : Function) (cs' : CodeStream)
    (hl : ∀ fn args, e ≠ SEXP.lang fn args)
    (H : compileExpr h f cs e = some (h', f', cs')) :
    f' = f ∧ cs'.insertPoint = cs.insertPoint ∧ cs'.ast = cs.ast ∧
      ∃ new, cs'.code = cs.code ++ new := by
  cases e with
  | lang fn args => exact absurd rfl (hl fn args)
  | sym s =>
    rw [compileExpr] at H
    simp only [Option.some.injEq, Prod.mk.injEq] at H
    obtain ⟨_, hf, hcs⟩ := H
    subst hf hcs
    obtain ⟨bc, hbc⟩ := compileGetvar_code cs (SEXP.sym s)
    exact ⟨rfl, compileGetvar_insertPoint _ _, compileGetvar_ast _ _, _, hbc⟩
  | prom value expr env =>
    rw [compileExpr] at H
    split_ifs at H
    simp only [Option.some.injEq, Prod.mk.injEq] at H
    obtain ⟨_, hf, hcs⟩ := H
    subst hf hcs
    exact ⟨rfl, rfl, rfl, _, rfl⟩
  | bcode =>
    rw [compileExpr] at H
    cases H
  | nil =>
    simp only [compileExpr, Option.some.injEq, Prod.mk.injEq] at H
    obtain ⟨_, hf, hcs⟩ := H
    subst hf hcs
    exact ⟨rfl, rfl, rfl, _, rfl⟩
  | lit v =>
    simp only [compileExpr, Option.some.injEq, Prod.mk.injEq] at H
    obtain ⟨_, hf, hcs⟩ := H
    subst hf hcs
    exact ⟨rfl, rfl, rfl, _, rfl⟩

theorem SEXP.numProms_leaf (e : SEXP) (hl : ∀ fn args, e ≠ SEXP.lang fn args) :
    e.numProms = 0 := by
  cases e <;> simp_all [SEXP.numProms]

mutual
theorem compileExpr_grows (h : Heap) (f : Function) (cs : CodeStream) (e : SEXP)
    (h' : Heap) (f' : Function) (cs' : CodeStream)
    (H : compileExpr h f cs e = some (h', f', cs')) :
    Grows f f' e.numProms ∧ cs'.insertPoint = cs.insertPoint ∧ cs'.ast = cs.ast ∧
      ∃ new, cs'.code = cs.code ++ new := by
  by_cases hl : ∃ fn args, e = SEXP.lang fn args
  · obtain ⟨fn, args, he⟩ := hl
    subst he
    rw [compileExpr] at H
    have := compileCall_grows h f cs (SEXP.lang fn args) fn args h' f' cs' H
    simpa [SEXP.numProms] using this
  · have hl' : ∀ fn args, e ≠ SEXP.lang fn args := fun fn args he => hl ⟨fn, args, he⟩
    obtain ⟨hf, hi, ha, hn⟩ := compileExpr_leaf h f cs e h' f' cs' hl' H
    subst hf
    rw [SEXP.numProms_leaf e hl']
    exact ⟨Grows.refl _, hi, ha, hn⟩
termination_by 2 * sizeOf e
theorem compileCall_grows (h : Heap) (f : Function) (cs : CodeStream) (ast fn : SEXP)
    (args : RList) (h' : Heap) (f' : Function) (cs' : CodeStream)
    (H : compileCall h f cs ast fn args = some (h', f', cs')) :
    Grows f f' (fn.numProms + args.numProms) ∧ cs'.insertPoint = cs.insertPoint ∧
      cs'.ast = cs.ast ∧ ∃ new, cs'.code = cs.code ++ new := by
  rw [compileCall_eq_some] at H
  obtain ⟨h1, f1, cs1, callArgs, names, hc, ha, _, hcs⟩ := H
  subst hcs
  have hg2 := compileArgs_grows h1 f1 args [] [] h' f' callArgs names ha
  unfold compileCallee at hc
  by_cases hs : fn.isSym = true
  · rw [if_pos hs] at hc
    simp only [Option.some.injEq, Prod.mk.injEq] at hc
    obtain ⟨a, b, c⟩ := hc
    subst a b c
    rw [SEXP.numProms_of_isSym hs, Nat.zero_add]
    exact ⟨hg2, rfl, rfl, [BC.ldfun fn, BC.call callArgs names], by
      simp [CodeStream.addAst, CodeStream.emit]⟩
  · rw [if_neg hs] at hc
    split at hc
    · cases hc
    · rename_i h1' f1' cs1' he
      simp only [Option.some.injEq, Prod.mk.injEq] at hc
      obtain ⟨a, b, c⟩ := hc
      subst a b c
      obtain ⟨hg1, hi1, ha1, new, hn1⟩ := compileExpr_grows h f cs fn _ _ _ he
      exact ⟨hg1.trans hg2, hi1, ha1, new ++ [BC.isfun, BC.call callArgs names], by
        simp [CodeStream.addAst, CodeStream.emit, hn1]⟩
termination_by 2 * (sizeOf fn + sizeOf args) + 1
theorem compileArgs_grows (h : Heap) (f : Function) (args : RList) (callArgs : List Nat)
    (names : List SEXP) (h' : Heap) (f' : Function) (callArgs' : List Nat)
    (names' : List SEXP)
    (H : compileArgs h f args callArgs names = some (h', f', callArgs', names')) :
    Grows f f' args.numProms := by
  cases args with
  | nil =>
    rw [compileArgs_nil] at H
    simp only [Option.some.injEq, Prod.mk.injEq] at H
    obtain ⟨_, hf, _⟩ := H
    subst hf
    simpa [RList.numProms] using Grows.refl f
  | cons arg tag rest =>
    rw [compileArgs_cons_eq_some] at H
    obtain ⟨h1, f1, prom, hp, H⟩ := H
    obtain ⟨_, hg1⟩ := compilePromise_grows h f arg h1 f1 prom hp
    have hg2 := compileArgs_grows h1 f1 rest _ _ h' f' callArgs' names' H
    have := hg1.trans hg2
    simpa [RList.numProms, Nat.add_assoc] using this
termination_by 2 * sizeOf args
theorem compilePromise_grows (h : Heap) (f : Function) (e : SEXP) (h' : Heap)
    (f' : Function) (idx : Nat) (H : compilePromise h f e = some (h', f', idx)) :
    idx = f.size ∧ Grows f f' (1 + e.numProms) := by
  have H0 := H
  rw [compilePromise_eq_some] at H
  obtain ⟨f2, cs1, hlt, he, hfin⟩ := H
  obtain ⟨hg, hip, _, _⟩ := compileExpr_grows h _ _ e h' f2 cs1 he
  rw [CodeStream.finalize_eq_some] at hfin
  obtain ⟨_, hf3, hi⟩ := hfin
  have hins : (cs1.emit BC.ret).insertPoint = f.size := hip
  rw [hins] at hi hf3
  refine ⟨hi, ?_⟩
  have hsz := hg.size_eq
  obtain ⟨l, hl, hn, hps⟩ := hg
  simp only at hl
  have hcode : f'.code = f.code ++ (some (Code.mk (cs1.emit BC.ret).ast
      (cs1.emit BC.ret).code (cs1.emit BC.ret).astMap) :: l) := by
    rw [hf3, hl]
    exact Function.set_reserved f.code l _
  refine ⟨_, hcode, by simp [hn, Nat.add_comm], ?_⟩
  intro j hj1 hj2
  by_cases hj : j = f.size
  · subst hj
    exact ⟨e, h, f, h', f', by rw [← hi]; exact H0, rfl⟩
  · have hslot : f'.slot j = f2.slot j := by
      simp only [Function.slot, hf3]
      simp [List.getElem?_set_ne (Ne.symm hj)]
    have hsz2 : f'.size = f2.size := by simp [Function.size, hf3]
    refine (hps j ?_ ?_).of_slot_eq hslot
    · simp only [Function.size, List.length_append, List.length_singleton] at hj hj1 ⊢
      omega
    · omega
termination_by 2 * sizeOf e + 1
end

/-! ## C10: slot reservation -/

theorem Function.nexts_indices (k : Nat) (f f' : Function) (is : List Nat)
    (H : f.nexts k = some (f', is)) : is = List.range' f.size k ∧ f'.size = f.size + k := by
  induction k generalizing f f' is with
  | zero =>
    simp only [Function.nexts, Option.some.injEq, Prod.mk.injEq] at H
    obtain ⟨a, b⟩ := H
    subst a b
    simp
  | succ k ih =>
    simp only [Function.nexts] at H
    split at H
    · cases H
    · rename_i f1 i hn
      split at H
      · cases H
      · rename_i f2 js hk
        simp only [Option.some.injEq, Prod.mk.injEq] at H
        obtain ⟨a, b⟩ := H
        subst a b
        rw [Function.next_eq_some] at hn
        obtain ⟨_, hf1, hi⟩ := hn
        obtain ⟨hjs, hsz⟩ := ih f1 _ _ hk
        have h1 : f1.size = f.size + 1 := by simp [hf1, Function.size]
        rw [h1] at hjs hsz
        refine ⟨?_, by omega⟩
        rw [hjs, hi, List.range'_succ]

/-- C10: when `next()` succeeds on a Function with `s` slots it returns `s`,
the Function then has `s + 1` slots, the new slot `s` is reserved and unfilled,
and the slots `0 .. s-1` hold what they held before; any number of consecutive
successful calls returns the consecutive indices `s, s+1, ...`, none twice. -/
theorem Function.next_reserves (f f' : Function) (i : Nat) (H : f.next = some (f', i)) :
    i = f.size ∧ f'.size = f.size + 1 ∧ f'.slot f.size = some none ∧
      (∀ j, j < f.size → f'.slot j = f.slot j) ∧
      (∀ f'' i', f'.next = some (f'', i') → i' = i + 1) ∧
      (∀ k g is, f.nexts k = some (g, is) → is = List.range' f.size k ∧ is.Nodup) := by
  rw [Function.next_eq_some] at H
  obtain ⟨_, hf, hi⟩ := H
  subst hf hi
  refine ⟨rfl, by simp [Function.size], by simp [Function.slot, Function.size], ?_, ?_, ?_⟩
  · intro j hj
    unfold Function.size at hj
    simp [Function.slot, List.getElem?_append_left hj]
  · intro f'' i' H2
    rw [Function.next_eq_some] at H2
    obtain ⟨_, _, hi'⟩ := H2
    rw [hi']
    simp [Function.size]
  · intro k g is hk
    have := (Function.nexts_indices k f g is hk).1
    rw [this]
    exact ⟨rfl, List.nodup_range' _ _⟩

theorem Function.next_reserves_witness :
    (Function.mk [some (Code.mk (SEXP.lit 1) [BC.push (SEXP.lit 1), BC.ret] [])]).next =
        some (Function.mk [some (Code.mk (SEXP.lit 1) [BC.push (SEXP.lit 1), BC.ret] []), none], 1) ∧
      (1 = (Function.mk [some (Code.mk (SEXP.lit 1) [BC.push (SEXP.lit 1), BC.ret] [])]).size ∧
        (Function.mk [some (Code.mk (SEXP.lit 1) [BC.push (SEXP.lit 1), BC.ret] []), none]).size =
          (Function.mk [some (Code.mk (SEXP.lit 1) [BC.push (SEXP.lit 1), BC.ret] [])]).size + 1) :=
  ⟨rfl,
    (Function.next_reserves
      (Function.mk [some (Code.mk (SEXP.lit 1) [BC.push (SEXP.lit 1), BC.ret] [])])
      (Function.mk [some (Code.mk (SEXP.lit 1) [BC.push (SEXP.lit 1), BC.ret] []), none])
      1 rfl).1,
    (Function.next_reserves
      (Function.mk [some (Code.mk (SEXP.lit 1) [BC.push (SEXP.lit 1), BC.ret] [])])
      (Function.mk [some (Code.mk (SEXP.lit 1) [BC.push (SEXP.lit 1), BC.ret] []), none])
      1 rfl).2.1⟩

/-! ## C7: symbol lowering -/

/-- C7: lowering a symbol appends exactly one instruction to the stream and
leaves the Function (and the heap) untouched; the instruction is a push of the
missing-argument sentinel for that sentinel, the varargs lookup `ldddvar` for a
symbol with `DDVAL` set, and the variable lookup `ldvar` of the symbol
otherwise; the first two cases exclude each other, the sentinel has no `DDVAL`. -/
theorem compileExpr_sym (h : Heap) (f : Function) (cs : CodeStream) (s : Symbol) :
    compileExpr h f cs (SEXP.sym s) = some (h, f, compileGetvar cs (SEXP.sym s)) ∧
      compileGetvar cs (SEXP.sym s) =
        CodeStream.mk cs.insertPoint cs.ast
          (cs.code ++
            [if s = Symbol.R_MissingArg then BC.push R_MissingArg
             else if DDVAL (SEXP.sym s) = true then BC.ldddvar (SEXP.sym s)
             else BC.ldvar (SEXP.sym s)])
          cs.astMap ∧
      DDVAL R_MissingArg = false := by
  refine ⟨by rw [compileExpr], ?_, rfl⟩
  cases s with
  | R_MissingArg => rfl
  | R_UnboundValue => rfl
  | R_DotsSymbol => rfl
  | named name dd =>
    cases dd <;> simp [compileGetvar, DDVAL, SEXP.isMissingArg, CodeStream.emit]

/-! ## C8: embedded value nodes -/

/-- C8: for an already-evaluated value node (its value is not the unbound
marker), lowering fails when the environment is not `R_NilValue`; when it is,
lowering appends exactly one push of the node's value (whatever its `expr`
is), marks the value, and leaves the Function untouched. -/
theorem compileExpr_prom (h : Heap) (f : Function) (cs : CodeStream)
    (value expr env : SEXP) (hv : value.isUnboundValue = false) :
    compileExpr h f cs (SEXP.prom value expr env) =
      if env.isNil = true then
        some (SET_NAMED h value 2, f,
          CodeStream.mk cs.insertPoint cs.ast (cs.code ++ [BC.push value]) cs.astMap)
      else none := by
  rw [compileExpr]
  simp [hv, compileConst, CodeStream.emit]

theorem compileExpr_prom_witness :
    (SEXP.lit 7).isUnboundValue = false ∧
      compileExpr (Heap.mk []) (Function.mk [none]) (CodeStream.mk 0 (SEXP.lit 0) [] [])
          (SEXP.prom (SEXP.lit 7) (SEXP.var "x") (SEXP.var "env")) =
        (if (SEXP.var "env").isNil = true then
          some (SET_NAMED (Heap.mk []) (SEXP.lit 7) 2, Function.mk [none],
            CodeStream.mk 0 (SEXP.lit 0) ([] ++ [BC.push (SEXP.lit 7)]) [])
        else none) ∧
      compileExpr (Heap.mk []) (Function.mk [none]) (CodeStream.mk 0 (SEXP.lit 0) [] [])
          (SEXP.prom (SEXP.lit 7) (SEXP.var "x") SEXP.nil) =
        (if SEXP.nil.isNil = true then
          some (SET_NAMED (Heap.mk []) (SEXP.lit 7) 2, Function.mk [none],
            CodeStream.mk 0 (SEXP.lit 0) ([] ++ [BC.push (SEXP.lit 7)]) [])
        else none) :=
  ⟨rfl,
    compileExpr_prom (Heap.mk []) (Function.mk [none]) (CodeStream.mk 0 (SEXP.lit 0) [] [])
      (SEXP.lit 7) (SEXP.var "x") (SEXP.var "env") rfl,
    compileExpr_prom (Heap.mk []) (Function.mk [none]) (CodeStream.mk 0 (SEXP.lit 0) [] [])
      (SEXP.lit 7) (SEXP.var "x") SEXP.nil rfl⟩

/-! ## C5: shape of a lowered call -/

/-- C5: when `compileCall` succeeds, what it appended to the caller's stream is
exactly `[ldfun callee; call indices names]` for a callee that is a symbol, and
otherwise exactly what lowering the callee appends, then one `isfun`, then the
single `call`. -/
theorem compileCall_shape (h : Heap) (f : Function) (cs : CodeStream) (ast fn : SEXP)
    (args : RList) (h' : Heap) (f' : Function) (cs' : CodeStream)
    (H : compileCall h f cs ast fn args = some (h', f', cs')) :
    ∃ callArgs names,
      (fn.isSym = true ∧ cs'.code = cs.code ++ [BC.ldfun fn, BC.call callArgs names]) ∨
      (fn.isSym = false ∧ ∃ h1 f1 cs1 callee,
        compileExpr h f cs fn = some (h1, f1, cs1) ∧ cs1.code = cs.code ++ callee ∧
        cs'.code = cs.code ++ callee ++ [BC.isfun, BC.call callArgs names]) := by
  rw [compileCall_eq_some] at H
  obtain ⟨h1, f1, cs1, callArgs, names, hc, _, _, hcs⟩ := H
  subst hcs
  refine ⟨callArgs, names, ?_⟩
  unfold compileCallee at hc
  by_cases hs : fn.isSym = true
  · rw [if_pos hs] at hc
    simp only [Option.some.injEq, Prod.mk.injEq] at hc
    obtain ⟨_, _, c⟩ := hc
    subst c
    exact Or.inl ⟨hs, by simp [CodeStream.addAst, CodeStream.emit]⟩
  · rw [if_neg hs] at hc
    split at hc
    · cases hc
    · rename_i h1' f1' cs1' he
      simp only [Option.some.injEq, Prod.mk.injEq] at hc
      obtain ⟨_, _, c⟩ := hc
      subst c
      obtain ⟨_, _, _, callee, hcallee⟩ := compileExpr_grows h f cs fn _ _ _ he
      refine Or.inr ⟨by simpa using hs, h1', f1', cs1', callee, he, hcallee, ?_⟩
      simp [CodeStream.addAst, CodeStream.emit, hcallee]

theorem compileCall_shape_witness :
    (compileCall (Heap.mk []) (Function.mk [none])
        (CodeStream.mk 0 (SEXP.lang (SEXP.var "f") (RList.cons (SEXP.var "x") SEXP.nil RList.nil))
          [] [])
        (SEXP.lang (SEXP.var "f") (RList.cons (SEXP.var "x") SEXP.nil RList.nil))
        (SEXP.var "f") (RList.cons (SEXP.var "x") SEXP.nil RList.nil) =
      some (Heap.mk [],
        Function.mk [none, some (Code.mk (SEXP.var "x") [BC.ldvar (SEXP.var "x"), BC.ret] [])],
        CodeStream.mk 0 (SEXP.lang (SEXP.var "f") (RList.cons (SEXP.var "x") SEXP.nil RList.nil))
          [BC.ldfun (SEXP.var "f"), BC.call [1] [R_NilValue]]
          [(2, SEXP.lang (SEXP.var "f") (RList.cons (SEXP.var "x") SEXP.nil RList.nil))])) ∧
    ∃ callArgs names,
      ((SEXP.var "f").isSym = true ∧
        [BC.ldfun (SEXP.var "f"), BC.call [1] [R_NilValue]] =
          [] ++ [BC.ldfun (SEXP.var "f"), BC.call callArgs names]) ∨
      ((SEXP.var "f").isSym = false ∧ ∃ h1 f1 cs1 callee,
        compileExpr (Heap.mk []) (Function.mk [none])
            (CodeStream.mk 0
              (SEXP.lang (SEXP.var "f") (RList.cons (SEXP.var "x") SEXP.nil RList.nil)) [] [])
            (SEXP.var "f") = some (h1, f1, cs1) ∧
          cs1.code = [] ++ callee ∧
          [BC.ldfun (SEXP.var "f"), BC.call [1] [R_NilValue]] =
            [] ++ callee ++ [BC.isfun, BC.call callArgs names]) :=
  have hrun : compileCall (Heap.mk []) (Function.mk [none])
      (CodeStream.mk 0 (SEXP.lang (SEXP.var "f") (RList.cons (SEXP.var "x") SEXP.nil RList.nil))
        [] [])
      (SEXP.lang (SEXP.var "f") (RList.cons (SEXP.var "x") SEXP.nil RList.nil))
      (SEXP.var "f") (RList.cons (SEXP.var "x") SEXP.nil RList.nil) =
    some (Heap.mk [],
      Function.mk [none, some (Code.mk (SEXP.var "x") [BC.ldvar (SEXP.var "x"), BC.ret] [])],
      CodeStream.mk 0 (SEXP.lang (SEXP.var "f") (RList.cons (SEXP.var "x") SEXP.nil RList.nil))
        [BC.ldfun (SEXP.var "f"), BC.call [1] [R_NilValue]]
        [(2, SEXP.lang (SEXP.var "f") (RList.cons (SEXP.var "x") SEXP.nil RList.nil))]) := by
    simp [compilePromise, compileExpr, compileCall, compileArgs, CodeStream.create,
      Function.next, CodeStream.finalize, Function.addCode, compileGetvar, CodeStream.emit,
      CodeStream.addAst, SEXP.var, SEXP.isSym, DDVAL, SEXP.isMissingArg, argName,
      SEXP.isDotsSymbol, SEXP.isNil, R_NilValue, MAX_FUN_IDX_eq, MAX_NUM_ARGS_eq, to_fun_idx_t,
      sizeof_fun_idx_t]
  ⟨hrun, compileCall_shape _ _ _ _ _ _ _ _ _ hrun⟩

/-! ## C6: the name list of a call -/

/-- Induction along a pairlist. -/
theorem RList.induction {P : RList → Prop} (hnil : P RList.nil)
    (hcons : ∀ car tag cdr, P cdr → P (RList.cons car tag cdr)) : ∀ l, P l
  | RList.nil => hnil
  | RList.cons car tag cdr => hcons car tag cdr (RList.induction hnil hcons cdr)

theorem RList.length_toList (args : RList) : args.toList.length = args.length := by
  induction args using RList.induction with
  | hnil => rfl
  | hcons car tag cdr ih => simp [RList.toList, RList.length, ih]

theorem argName_eq (arg tag : SEXP) :
    argName arg tag =
      if arg.isDotsSymbol = true then R_DotsSymbol
      else if tag.isNil = true then R_NilValue else tag := by
  unfold argName
  cases arg.isDotsSymbol <;> cases tag.isNil <;> simp

theorem compileArgs_names (args : RList) (h : Heap) (f : Function) (callArgs : List Nat)
    (names : List SEXP) (h' : Heap) (f' : Function) (callArgs' : List Nat)
    (names' : List SEXP)
    (H : compileArgs h f args callArgs names = some (h', f', callArgs', names')) :
    names' = names ++ args.toList.map (fun p => argName p.1 p.2) ∧
      callArgs'.length = callArgs.length + args.length := by
  induction args using RList.induction generalizing h f callArgs names with
  | hnil =>
    rw [compileArgs_nil] at H
    simp only [Option.some.injEq, Prod.mk.injEq] at H
    obtain ⟨_, _, a, b⟩ := H
    subst a b
    simp [RList.toList, RList.length]
  | hcons arg tag rest ih =>
    rw [compileArgs_cons_eq_some] at H
    obtain ⟨h1, f1, prom, _, H⟩ := H
    obtain ⟨hn, hl⟩ := ih h1 f1 _ _ H
    refine ⟨?_, ?_⟩
    · rw [hn]; simp [RList.toList]
    · rw [hl]; simp [RList.length]; omega

/-- C6: when `compileCall` succeeds, the last instruction of the stream is the
`call`; its name list is as long as its index list, one entry per argument, and
the entry of an argument depends on that argument alone: the variadic marker
`R_DotsSymbol` when the argument is that symbol (tested first, tagged or not),
else `R_NilValue` when the argument has no tag, else its tag. -/
theorem compileCall_names (h : Heap) (f : Function) (cs : CodeStream) (ast fn : SEXP)
    (args : RList) (h' : Heap) (f' : Function) (cs' : CodeStream)
    (H : compileCall h f cs ast fn args = some (h', f', cs')) :
    ∃ callArgs names,
      cs'.code.getLast? = some (BC.call callArgs names) ∧
      names.length = callArgs.length ∧ callArgs.length = args.length ∧
      names = args.toList.map (fun p =>
        if p.1.isDotsSymbol = true then R_DotsSymbol
        else if p.2.isNil = true then R_NilValue else p.2) := by
  rw [compileCall_eq_some] at H
  obtain ⟨h1, f1, cs1, callArgs, names, _, ha, _, hcs⟩ := H
  subst hcs
  obtain ⟨hn, hl⟩ := compileArgs_names args h1 f1 [] [] h' f' callArgs names ha
  simp only [List.nil_append, List.length_nil, Nat.zero_add] at hn hl
  refine ⟨callArgs, names, by simp [CodeStream.addAst, CodeStream.emit], ?_, hl, ?_⟩
  · rw [hn, List.length_map, RList.length_toList, hl]
  · rw [hn]
    apply List.map_congr_left
    intro p _
    exact argName_eq p.1 p.2

theorem compileCall_names_witness :
    (compileCall (Heap.mk []) (Function.mk [none])
        (CodeStream.mk 0
          (SEXP.lang (SEXP.var "f") (RList.cons (SEXP.lit 1) (SEXP.var "y") RList.nil)) [] [])
        (SEXP.lang (SEXP.var "f") (RList.cons (SEXP.lit 1) (SEXP.var "y") RList.nil))
        (SEXP.var "f") (RList.cons (SEXP.lit 1) (SEXP.var "y") RList.nil) =
      some (Heap.mk [(SEXP.lit 1, 2)],
        Function.mk [none, some (Code.mk (SEXP.lit 1) [BC.push (SEXP.lit 1), BC.ret] [])],
        CodeStream.mk 0
          (SEXP.lang (SEXP.var "f") (RList.cons (SEXP.lit 1) (SEXP.var "y") RList.nil))
          [BC.ldfun (SEXP.var "f"), BC.call [1] [SEXP.var "y"]]
          [(2, SEXP.lang (SEXP.var "f") (RList.cons (SEXP.lit 1) (SEXP.var "y") RList.nil))])) ∧
    ∃ callArgs names,
      [BC.ldfun (SEXP.var "f"), BC.call [1] [SEXP.var "y"]].getLast? =
        some (BC.call callArgs names) ∧
      names.length = callArgs.length ∧
      callArgs.length = (RList.cons (SEXP.lit 1) (SEXP.var "y") RList.nil).length ∧
      names = (RList.cons (SEXP.lit 1) (SEXP.var "y") RList.nil).toList.map (fun p =>
        if p.1.isDotsSymbol = true then R_DotsSymbol
        else if p.2.isNil = true then R_NilValue else p.2) :=
  have hrun : compileCall (Heap.mk []) (Function.mk [none])
      (CodeStream.mk 0
        (SEXP.lang (SEXP.var "f") (RList.cons (SEXP.lit 1) (SEXP.var "y") RList.nil)) [] [])
      (SEXP.lang (SEXP.var "f") (RList.cons (SEXP.lit 1) (SEXP.var "y") RList.nil))
      (SEXP.var "f") (RList.cons (SEXP.lit 1) (SEXP.var "y") RList.nil) =
    some (Heap.mk [(SEXP.lit 1, 2)],
      Function.mk [none, some (Code.mk (SEXP.lit 1) [BC.push (SEXP.lit 1), BC.ret] [])],
      CodeStream.mk 0
        (SEXP.lang (SEXP.var "f") (RList.cons (SEXP.lit 1) (SEXP.var "y") RList.nil))
        [BC.ldfun (SEXP.var "f"), BC.call [1] [SEXP.var "y"]]
        [(2, SEXP.lang (SEXP.var "f") (RList.cons (SEXP.lit 1) (SEXP.var "y") RList.nil))]) := by
    simp [compilePromise, compileExpr, compileCall, compileArgs, CodeStream.create,
      Function.next, CodeStream.finalize, Function.addCode, compileConst, SET_NAMED,
      CodeStream.emit, CodeStream.addAst, SEXP.var, SEXP.isSym, argName, SEXP.isDotsSymbol,
      SEXP.isNil, R_NilValue, MAX_FUN_IDX_eq, MAX_NUM_ARGS_eq, to_fun_idx_t, sizeof_fun_idx_t]
  ⟨hrun, compileCall_names _ _ _ _ _ _ _ _ _ hrun⟩

/-! ## C9: pre-compiled nodes are rejected at every depth -/

theorem compileCall_eq_none_of_args (h : Heap) (f : Function) (cs : CodeStream)
    (ast fn : SEXP) (args : RList)
    (ha : ∀ h1 f1, compileArgs h1 f1 args [] [] = none) :
    compileCall h f cs ast fn args = none := by
  cases hc : compileCall h f cs ast fn args with
  | none => rfl
  | some r =>
    obtain ⟨h', f', cs'⟩ := r
    rw [compileCall_eq_some] at hc
    obtain ⟨h1, f1, _, _, _, _, hs, _⟩ := hc
    rw [ha h1 f1] at hs
    cases hs

theorem compilePromise_eq_none_of_expr (h : Heap) (f : Function) (e : SEXP)
    (he : ∀ f1 cs, compileExpr h f1 cs e = none) : compilePromise h f e = none := by
  cases hc : compilePromise h f e with
  | none => rfl
  | some r =>
    obtain ⟨h', f', idx⟩ := r
    rw [compilePromise_eq_some] at hc
    obtain ⟨f2, cs1, _, hs, _⟩ := hc
    rw [he] at hs
    cases hs

theorem SEXP.not_isSym_of_hasBcode {fn : SEXP} (hb : fn.hasBcode = true) :
    ¬ fn.isSym = true := by
  cases fn <;> simp_all [SEXP.hasBcode, SEXP.isSym]

mutual
theorem compileExpr_bcode : ∀ (e : SEXP), e.hasBcode = true →
    ∀ (h : Heap) (f : Function) (cs : CodeStream), compileExpr h f cs e = none
  | SEXP.lang fn args, hb, h, f, cs => by
    rw [compileExpr]
    simp only [SEXP.hasBcode, Bool.or_eq_true] at hb
    rcases hb with hb | hb
    · apply compileCall_eq_none_of_callee
      unfold compileCallee
      rw [if_neg (SEXP.not_isSym_of_hasBcode hb), compileExpr_bcode fn hb h f cs]
    · apply compileCall_eq_none_of_args
      intro h1 f1
      exact compileArgs_bcode args hb h1 f1 [] []
  | SEXP.bcode, _, h, f, cs => by rw [compileExpr]
  | SEXP.sym _, hb, _, _, _ => by simp [SEXP.hasBcode] at hb
  | SEXP.prom _ _ _, hb, _, _, _ => by simp [SEXP.hasBcode] at hb
  | SEXP.nil, hb, _, _, _ => by simp [SEXP.hasBcode] at hb
  | SEXP.lit _, hb, _, _, _ => by simp [SEXP.hasBcode] at hb
theorem compileArgs_bcode : ∀ (args : RList), args.hasBcode = true →
    ∀ (h : Heap) (f : Function) (callArgs : List Nat) (names : List SEXP),
      compileArgs h f args callArgs names = none
  | RList.nil, hb, _, _, _, _ => by simp [RList.hasBcode] at hb
  | RList.cons arg tag rest, hb, h, f, callArgs, names => by
    rw [compileArgs_cons]
    simp only [RList.hasBcode, Bool.or_eq_true] at hb
    rcases hb with hb | hb
    · rw [compilePromise_eq_none_of_expr h f arg
        (fun f1 cs => compileExpr_bcode arg hb h f1 cs)]
    · split
      · rfl
      · exact compileArgs_bcode rest hb _ _ _ _
end

/-- C9: an expression in which a pre-compiled-bytecode node occurs, as the
expression itself or in the callee or an argument of a call at any nesting
depth, is rejected: `compileExpr` fails on it, in every state, and so does
`compilePromise`. -/
theorem bcode_rejected (h : Heap) (f : Function) (cs : CodeStream) (e : SEXP)
    (hb : e.hasBcode = true) :
    compileExpr h f cs e = none ∧ compilePromise h f e = none :=
  ⟨compileExpr_bcode e hb h f cs,
    compilePromise_eq_none_of_expr h f e (fun f1 cs1 => compileExpr_bcode e hb h f1 cs1)⟩

theorem bcode_rejected_witness :
    (SEXP.lang (SEXP.var "g")
        (RList.cons (SEXP.var "x") SEXP.nil
          (RList.cons
            (SEXP.lang (SEXP.lang SEXP.bcode RList.nil) (RList.cons (SEXP.lit 1) SEXP.nil RList.nil))
            (SEXP.var "y") RList.nil))).hasBcode = true ∧
      compileExpr (Heap.mk []) (Function.mk [none]) (CodeStream.mk 0 SEXP.nil [] [])
          (SEXP.lang (SEXP.var "g")
            (RList.cons (SEXP.var "x") SEXP.nil
              (RList.cons
                (SEXP.lang (SEXP.lang SEXP.bcode RList.nil)
                  (RList.cons (SEXP.lit 1) SEXP.nil RList.nil))
                (SEXP.var "y") RList.nil))) = none ∧
      compilePromise (Heap.mk []) (Function.mk [none])
          (SEXP.lang (SEXP.var "g")
            (RList.cons (SEXP.var "x") SEXP.nil
              (RList.cons
                (SEXP.lang (SEXP.lang SEXP.bcode RList.nil)
                  (RList.cons (SEXP.lit 1) SEXP.nil RList.nil))
                (SEXP.var "y") RList.nil))) = none :=
  ⟨rfl, bcode_rejected (Heap.mk []) (Function.mk [none]) (CodeStream.mk 0 SEXP.nil [] []) _ rfl⟩

theorem compileCall_eq_none_of_args_at (h : Heap) (f : Function) (cs : CodeStream)
    (ast fn : SEXP) (args : RList) (h1 : Heap) (f1 : Function) (cs1 : CodeStream)
    (hc : compileCallee h f cs fn = some (h1, f1, cs1))
    (ha : compileArgs h1 f1 args [] [] = none) :
    compileCall h f cs ast fn args = none := by
  cases hr : compileCall h f cs ast fn args with
  | none => rfl
  | some r =>
    obtain ⟨h', f', cs'⟩ := r
    rw [compileCall_eq_some] at hr
    obtain ⟨h1', f1', cs1', _, _, hc', hs, _⟩ := hr
    rw [hc] at hc'
    simp only [Option.some.injEq, Prod.mk.injEq] at hc'
    obtain ⟨a, b, _⟩ := hc'
    subst a b
    rw [ha] at hs
    cases hs

/-! ## C1: the argument-count limit -/

theorem RList.length_replicate (n : Nat) (car tag : SEXP) :
    (RList.replicate n car tag).length = n := by
  induction n with
  | zero => rfl
  | succ n ih => simp [RList.replicate, RList.length, ih]

theorem RList.allPlain_replicate (n : Nat) (car tag : SEXP) (hp : car.isPlain = true) :
    (RList.replicate n car tag).allPlain = true := by
  induction n with
  | zero => rfl
  | succ n ih => simp [RList.replicate, RList.allPlain, ih, hp]

theorem compileExpr_plain (h : Heap) (f : Function) (cs : CodeStream) (e : SEXP)
    (hp : e.isPlain = true) :
    ∃ h' cs', compileExpr h f cs e = some (h', f, cs') ∧ cs'.insertPoint = cs.insertPoint := by
  cases e with
  | sym s => exact ⟨h, _, by rw [compileExpr], compileGetvar_insertPoint _ _⟩
  | lit v =>
    exact ⟨(compileConst h cs (SEXP.lit v)).1, (compileConst h cs (SEXP.lit v)).2,
      by simp only [compileExpr], rfl⟩
  | nil =>
    exact ⟨(compileConst h cs SEXP.nil).1, (compileConst h cs SEXP.nil).2,
      by simp only [compileExpr], rfl⟩
  | lang fn args => simp [SEXP.isPlain] at hp
  | prom value expr env => simp [SEXP.isPlain] at hp
  | bcode => simp [SEXP.isPlain] at hp

theorem compilePromise_eq_none_of_full (h : Heap) (f : Function) (e : SEXP)
    (hfull : MAX_FUN_IDX ≤ f.size + 1) : compilePromise h f e = none := by
  cases hc : compilePromise h f e with
  | none => rfl
  | some r =>
    obtain ⟨h', f', idx⟩ := r
    rw [compilePromise_eq_some] at hc
    obtain ⟨_, _, hlt, _, _⟩ := hc
    omega

theorem compilePromise_plain (h : Heap) (f : Function) (e : SEXP) (hp : e.isPlain = true)
    (hlt : f.size + 1 < MAX_FUN_IDX) :
    ∃ h' f', compilePromise h f e = some (h', f', f.size) ∧ f'.size = f.size + 1 := by
  obtain ⟨h', cs', he, hi⟩ :=
    compileExpr_plain h (Function.mk (f.code ++ [none])) (CodeStream.mk f.size e [] []) e hp
  refine ⟨h', Function.mk ((f.code ++ [none]).set f.size
    (some (Code.mk (cs'.emit BC.ret).ast (cs'.emit BC.ret).code (cs'.emit BC.ret).astMap))),
    ?_, by simp [Function.size]⟩
  rw [compilePromise_eq_some]
  refine ⟨_, cs', hlt, he, ?_⟩
  rw [CodeStream.finalize_eq_some]
  have hins : (cs'.emit BC.ret).insertPoint = f.size := hi
  rw [hins]
  exact ⟨by simp [Function.size], rfl, rfl⟩

theorem compileArgs_plain (args : RList) (hp : args.allPlain = true) (h : Heap)
    (f : Function) (callArgs : List Nat) (names : List SEXP) (hf : f.size < MAX_FUN_IDX) :
    (f.size + args.length < MAX_FUN_IDX →
        ∃ r, compileArgs h f args callArgs names = some r) ∧
      (MAX_FUN_IDX ≤ f.size + args.length → compileArgs h f args callArgs names = none) := by
  induction args using RList.induction generalizing h f callArgs names with
  | hnil =>
    refine ⟨fun _ => ⟨_, compileArgs_nil h f callArgs names⟩, ?_⟩
    intro hge
    simp only [RList.length] at hge
    omega
  | hcons arg tag rest ih =>
    simp only [RList.allPlain, Bool.and_eq_true] at hp
    simp only [RList.length]
    rw [compileArgs_cons]
    by_cases hlt : f.size + 1 < MAX_FUN_IDX
    · obtain ⟨h1, f1, hprom, hsz⟩ := compilePromise_plain h f arg hp.1 hlt
      rw [hprom]
      have := ih hp.2 h1 f1 (callArgs ++ [f.size]) (names ++ [argName arg tag]) (by omega)
      rw [hsz] at this
      refine ⟨fun hh => this.1 (by omega), fun hh => this.2 (by omega)⟩
    · rw [compilePromise_eq_none_of_full h f arg (by omega)]
      refine ⟨fun hh => by omega, fun _ => rfl⟩

theorem compileCallee_plain (h : Heap) (f : Function) (cs : CodeStream) (fn : SEXP)
    (hp : fn.isPlain = true) : ∃ h1 cs1, compileCallee h f cs fn = some (h1, f, cs1) := by
  unfold compileCallee
  by_cases hs : fn.isSym = true
  · rw [if_pos hs]; exact ⟨_, _, rfl⟩
  · rw [if_neg hs]
    obtain ⟨h', cs', he, _⟩ := compileExpr_plain h f cs fn hp
    rw [he]
    exact ⟨_, _, rfl⟩

theorem compileCall_plain_isSome (h : Heap) (f : Function) (cs : CodeStream) (ast fn : SEXP)
    (args : RList) (hfn : fn.isPlain = true) (hargs : args.allPlain = true)
    (hf : f.size < MAX_FUN_IDX) :
    (compileCall h f cs ast fn args).isSome = true ↔ f.size + args.length < MAX_FUN_IDX := by
  obtain ⟨h1, cs1, hc⟩ := compileCallee_plain h f cs fn hfn
  have hargs1 := compileArgs_plain args hargs h1 f [] [] hf
  constructor
  · intro hs
    by_contra hge
    rw [compileCall_eq_none_of_args_at h f cs ast fn args h1 f cs1 hc
      (hargs1.2 (by omega))] at hs
    cases hs
  · intro hlt
    obtain ⟨r, hr⟩ := hargs1.1 hlt
    obtain ⟨h2, f2, callArgs, names⟩ := r
    have hlen := (compileArgs_names args h1 f [] [] h2 f2 callArgs names hr).2
    have : compileCall h f cs ast fn args =
        some (h2, f2, (cs1.emit (BC.call callArgs names)).addAst ast) := by
      rw [compileCall_eq_some]
      refine ⟨h1, f, cs1, callArgs, names, hc, hr, ?_, rfl⟩
      rw [hlen, MAX_NUM_ARGS_eq]
      rw [MAX_FUN_IDX_eq] at hlt
      simp only [List.length_nil]
      omega
    rw [this]
    rfl

/-- C1 (amended): for a call whose callee and `n` arguments are plain symbols
or literals, `compileCall` started on the empty Function succeeds exactly when
`n < MAX_NUM_ARGS`, strictly; started on a Function that already has `s` slots
(`s < MAX_FUN_IDX`) it succeeds exactly when `s + n < MAX_FUN_IDX`. In every
other case it fails. `MAX_NUM_ARGS` is `2 ^ 16`, from the width of
`num_args_t`. -/
theorem compileCall_arg_limit (h : Heap) (cs : CodeStream) (ast fn : SEXP) (args : RList)
    (hfn : fn.isPlain = true) (hargs : args.allPlain = true) :
    ((compileCall h Function.empty cs ast fn args).isSome = true ↔
        args.length < MAX_NUM_ARGS) ∧
      (∀ f : Function, f.size < MAX_FUN_IDX →
        ((compileCall h f cs ast fn args).isSome = true ↔
          f.size + args.length < MAX_FUN_IDX)) ∧
      MAX_NUM_ARGS = 2 ^ (8 * sizeof_num_args_t) ∧ MAX_NUM_ARGS = 2 ^ 16 := by
  refine ⟨?_, fun f hf => compileCall_plain_isSome h f cs ast fn args hfn hargs hf, by decide,
    by decide⟩
  have := compileCall_plain_isSome h Function.empty cs ast fn args hfn hargs (by decide)
  rw [this, MAX_FUN_IDX_eq, MAX_NUM_ARGS_eq]
  simp [Function.size, Function.empty]

theorem compileCall_arg_limit_witness :
    (SEXP.var "f").isPlain = true ∧
      (RList.replicate 3 (SEXP.var "x") R_NilValue).allPlain = true ∧
      ((compileCall (Heap.mk []) Function.empty (CodeStream.mk 0 SEXP.nil [] [])
          (SEXP.lang (SEXP.var "f") (RList.replicate 3 (SEXP.var "x") R_NilValue))
          (SEXP.var "f") (RList.replicate 3 (SEXP.var "x") R_NilValue)).isSome = true ↔
        (RList.replicate 3 (SEXP.var "x") R_NilValue).length < MAX_NUM_ARGS) :=
  ⟨rfl, rfl,
    (compileCall_arg_limit (Heap.mk []) (CodeStream.mk 0 SEXP.nil [] [])
      (SEXP.lang (SEXP.var "f") (RList.replicate 3 (SEXP.var "x") R_NilValue))
      (SEXP.var "f") (RList.replicate 3 (SEXP.var "x") R_NilValue) rfl rfl).1⟩

/-- C1 as stated fails at `n = MAX_NUM_ARGS`: a call with `65536` plain
arguments has `n ≤ MAX_NUM_ARGS`, and `compileCall` started on the empty
Function fails on it. -/
theorem compileCall_arg_limit_counterexample :
    (RList.replicate 65536 (SEXP.var "x") R_NilValue).length ≤ MAX_NUM_ARGS ∧
      compileCall (Heap.mk []) Function.empty (CodeStream.mk 0 SEXP.nil [] [])
        (SEXP.lang (SEXP.var "f") (RList.replicate 65536 (SEXP.var "x") R_NilValue))
        (SEXP.var "f") (RList.replicate 65536 (SEXP.var "x") R_NilValue) = none := by
  refine ⟨?_, ?_⟩
  · rw [RList.length_replicate, MAX_NUM_ARGS_eq]
  · have hiff := compileCall_plain_isSome (Heap.mk []) Function.empty
      (CodeStream.mk 0 SEXP.nil [] [])
      (SEXP.lang (SEXP.var "f") (RList.replicate 65536 (SEXP.var "x") R_NilValue))
      (SEXP.var "f") (RList.replicate 65536 (SEXP.var "x") R_NilValue) rfl
      (RList.allPlain_replicate 65536 (SEXP.var "x") R_NilValue rfl) (by decide)
    rw [RList.length_replicate, MAX_FUN_IDX_eq] at hiff
    have hsz : Function.empty.size = 0 := rfl
    rw [hsz] at hiff
    cases hr : compileCall (Heap.mk []) Function.empty (CodeStream.mk 0 SEXP.nil [] [])
        (SEXP.lang (SEXP.var "f") (RList.replicate 65536 (SEXP.var "x") R_NilValue))
        (SEXP.var "f") (RList.replicate 65536 (SEXP.var "x") R_NilValue) with
    | none => rfl
    | some r =>
      rw [hr] at hiff
      have := hiff.1 rfl
      omega

/-! ## C2: the lazy-argument contract -/

theorem compilePromise_holds (h : Heap) (f : Function) (e : SEXP) (h' : Heap)
    (f' : Function) (idx : Nat) (H : compilePromise h f e = some (h', f', idx)) :
    f'.HoldsLowering e idx := by
  obtain ⟨hidx, hg⟩ := compilePromise_grows h f e h' f' idx H
  rw [compilePromise_eq_some] at H
  obtain ⟨f2, cs1, _, he, hfin⟩ := H
  obtain ⟨hg2, hip, hast, _⟩ := compileExpr_grows h _ _ e h' f2 cs1 he
  simp only at hast
  rw [CodeStream.finalize_eq_some] at hfin
  obtain ⟨hlt, hf3, _⟩ := hfin
  have hins : (cs1.emit BC.ret).insertPoint = f.size := hip
  rw [hins] at hf3 hlt
  obtain ⟨l, hl, _, _⟩ := hg
  have htake : f'.code.take idx = f.code := by
    rw [hl, hidx]
    simp [Function.size]
  refine ⟨h, h', f2, cs1, ?_, ?_⟩
  · rw [htake, hidx]
    exact he
  · rw [hidx, hf3]
    unfold Function.size at hlt
    simp [Function.slot, Function.size, CodeStream.emit, hlt, hast]

theorem Function.HoldsLowering.of_grows {f f' : Function} {e : SEXP} {idx n : Nat}
    (hh : f.HoldsLowering e idx) (hlt : idx < f.size) (hg : Grows f f' n) :
    f'.HoldsLowering e idx := by
  obtain ⟨h0, h1, f1, cs1, he, hs⟩ := hh
  have hslot := hg.slot_eq hlt
  obtain ⟨l, hl, _, _⟩ := hg
  have htake : f'.code.take idx = f.code.take idx := by
    unfold Function.size at hlt
    rw [hl, List.take_append_of_le_length (le_of_lt hlt)]
  exact ⟨h0, h1, f1, cs1, by rw [htake]; exact he, by rw [hslot]; exact hs⟩

theorem compileArgs_slots (args : RList) (h : Heap) (f : Function) (callArgs : List Nat)
    (names : List SEXP) (h' : Heap) (f' : Function) (callArgs' : List Nat)
    (names' : List SEXP)
    (H : compileArgs h f args callArgs names = some (h', f', callArgs', names')) :
    ∃ new, callArgs' = callArgs ++ new ∧ new.Pairwise (fun a b => a < b) ∧
      (∀ j ∈ new, f.size ≤ j ∧ j < f'.size) ∧
      List.Forall₂ (fun p idx => f'.HoldsLowering p.1 idx) args.toList new := by
  induction args using RList.induction generalizing h f callArgs names with
  | hnil =>
    rw [compileArgs_nil] at H
    simp only [Option.some.injEq, Prod.mk.injEq] at H
    obtain ⟨_, _, a, _⟩ := H
    subst a
    exact ⟨[], by simp, List.Pairwise.nil, by simp, by simp [RList.toList]⟩
  | hcons arg tag rest ih =>
    rw [compileArgs_cons_eq_some] at H
    obtain ⟨h1, f1, prom, hp, H⟩ := H
    obtain ⟨hidx, hg1⟩ := compilePromise_grows h f arg h1 f1 prom hp
    have hhold := compilePromise_holds h f arg h1 f1 prom hp
    have hg2 := compileArgs_grows h1 f1 rest _ _ h' f' callArgs' names' H
    have hs1 := hg1.size_eq
    have hs2 := hg2.size_eq
    obtain ⟨new, hnew, hpw, hbd, hall⟩ := ih h1 f1 _ _ H
    refine ⟨prom :: new, by rw [hnew]; simp, ?_, ?_, ?_⟩
    · refine List.Pairwise.cons ?_ hpw
      intro j hj
      have := (hbd j hj).1
      omega
    · intro j hj
      rcases List.mem_cons.1 hj with hj | hj
      · subst hj; omega
      · have := hbd j hj
        omega
    · simp only [RList.toList]
      exact List.Forall₂.cons (hhold.of_grows (by omega) hg2) hall

/-- C2: when `compileCall` succeeds on a call with `n` arguments, its `call`
instruction carries exactly `n` function-table indices, strictly increasing
(so pairwise distinct) and in argument order; the slot at the `i`-th index
holds the Code made of the lowering of the `i`-th argument followed by `ret`;
and the caller's stream received only the callee's code (`ldfun`, or the
callee's lowering and `isfun`) and the `call`: no instruction of an argument. -/
theorem compileCall_promises (h : Heap) (f : Function) (cs : CodeStream) (ast fn : SEXP)
    (args : RList) (h' : Heap) (f' : Function) (cs' : CodeStream)
    (H : compileCall h f cs ast fn args = some (h', f', cs')) :
    ∃ callArgs names callee,
      cs'.code = cs.code ++ callee ++ [BC.call callArgs names] ∧
      ((fn.isSym = true ∧ callee = [BC.ldfun fn]) ∨
        (fn.isSym = false ∧ ∃ h1 f1 cs1, compileExpr h f cs fn = some (h1, f1, cs1) ∧
          cs1.code ++ [BC.isfun] = cs.code ++ callee)) ∧
      callArgs.length = args.length ∧
      callArgs.Pairwise (fun a b => a < b) ∧ callArgs.Nodup ∧
      List.Forall₂ (fun p idx => f'.HoldsLowering p.1 idx) args.toList callArgs := by
  rw [compileCall_eq_some] at H
  obtain ⟨h1, f1, cs1, callArgs, names, hc, ha, _, hcs⟩ := H
  subst hcs
  obtain ⟨new, hnew, hpw, _, hall⟩ := compileArgs_slots args h1 f1 [] [] h' f' callArgs names ha
  simp only [List.nil_append] at hnew
  subst hnew
  have hlen := (compileArgs_names args h1 f1 [] [] h' f' callArgs names ha).2
  simp only [List.length_nil, Nat.zero_add] at hlen
  have hnd : callArgs.Nodup := hpw.imp (fun hab => Nat.ne_of_lt hab)
  unfold compileCallee at hc
  by_cases hs : fn.isSym = true
  · rw [if_pos hs] at hc
    simp only [Option.some.injEq, Prod.mk.injEq] at hc
    obtain ⟨_, hf, c⟩ := hc
    subst c
    exact ⟨callArgs, names, [BC.ldfun fn], by simp [CodeStream.addAst, CodeStream.emit],
      Or.inl ⟨hs, rfl⟩, hlen, hpw, hnd, hall⟩
  · rw [if_neg hs] at hc
    split at hc
    · cases hc
    · rename_i h1' f1' cs1' he
      simp only [Option.some.injEq, Prod.mk.injEq] at hc
      obtain ⟨_, _, c⟩ := hc
      subst c
      obtain ⟨_, _, _, callee, hcallee⟩ := compileExpr_grows h f cs fn _ _ _ he
      refine ⟨callArgs, names, callee ++ [BC.isfun], ?_, Or.inr ⟨by simpa using hs, h1', f1',
        cs1', he, ?_⟩, hlen, hpw, hnd, hall⟩
      · simp [CodeStream.addAst, CodeStream.emit, hcallee]
      · simp [hcallee]

/-! ## Evaluation lemmas for concrete inputs -/

theorem compilePromise_var (h : Heap) (f : Function) (name : String)
    (hlt : f.size + 1 < MAX_FUN_IDX) :
    compilePromise h f (SEXP.var name) =
      some (h,
        Function.mk (f.code ++
          [some (Code.mk (SEXP.var name) [BC.ldvar (SEXP.var name), BC.ret] [])]),
        f.size) := by
  rw [compilePromise_eq_some]
  refine ⟨Function.mk (f.code ++ [none]),
    CodeStream.mk f.size (SEXP.var name) [BC.ldvar (SEXP.var name)] [], hlt, ?_, ?_⟩
  · unfold SEXP.var
    rw [compileExpr]
    rfl
  · rw [CodeStream.finalize_eq_some]
    refine ⟨by simp [Function.size, CodeStream.emit], ?_, rfl⟩
    simp [CodeStream.emit, Function.size]

theorem compilePromise_lit (h : Heap) (f : Function) (v : Int)
    (hlt : f.size + 1 < MAX_FUN_IDX) :
    compilePromise h f (SEXP.lit v) =
      some (SET_NAMED h (SEXP.lit v) 2,
        Function.mk (f.code ++
          [some (Code.mk (SEXP.lit v) [BC.push (SEXP.lit v), BC.ret] [])]),
        f.size) := by
  rw [compilePromise_eq_some]
  refine ⟨Function.mk (f.code ++ [none]),
    CodeStream.mk f.size (SEXP.lit v) [BC.push (SEXP.lit v)] [], hlt, ?_, ?_⟩
  · simp only [compileExpr]
    rfl
  · rw [CodeStream.finalize_eq_some]
    refine ⟨by simp [Function.size, CodeStream.emit], ?_, rfl⟩
    simp [CodeStream.emit, Function.size]

theorem compilePromise_call_sym (h : Heap) (f : Function) (fn : SEXP) (args : RList)
    (h' : Heap) (f' : Function) (callArgs : List Nat) (names : List SEXP)
    (hs : fn.isSym = true) (hlt : f.size + 1 < MAX_FUN_IDX)
    (ha : compileArgs h (Function.mk (f.code ++ [none])) args [] [] =
      some (h', f', callArgs, names))
    (hlen : callArgs.length < MAX_NUM_ARGS) :
    compilePromise h f (SEXP.lang fn args) =
      some (h',
        Function.mk (f'.code.set f.size
          (some (Code.mk (SEXP.lang fn args) [BC.ldfun fn, BC.call callArgs names, BC.ret]
            [(2, SEXP.lang fn args)]))),
        f.size) := by
  have hsz := (compileArgs_grows h _ args [] [] h' f' callArgs names ha).size_eq
  rw [compilePromise_eq_some]
  refine ⟨f', CodeStream.mk f.size (SEXP.lang fn args) [BC.ldfun fn, BC.call callArgs names]
    [(2, SEXP.lang fn args)], hlt, ?_, ?_⟩
  · rw [compileExpr, compileCall_eq_some]
    refine ⟨h, Function.mk (f.code ++ [none]),
      (CodeStream.mk f.size (SEXP.lang fn args) [] []).emit (BC.ldfun fn), callArgs, names, ?_,
      ha, hlen, rfl⟩
    unfold compileCallee
    rw [if_pos hs]
  · rw [CodeStream.finalize_eq_some]
    refine ⟨?_, rfl, rfl⟩
    simp only [CodeStream.emit, Function.size, List.length_append, List.length_singleton] at hsz ⊢
    omega

theorem Example.compileCall_run :
    compileCall (Heap.mk []) (Function.mk [none]) Example.stream Example.call (SEXP.var "f")
        Example.args =
      some (Heap.mk [(SEXP.lit 1, 2)], Example.function, Example.streamOut) := by
  have hx := compilePromise_var (Heap.mk []) (Function.mk [none]) "x" (by decide)
  have hy := compilePromise_lit (Heap.mk [])
    (Function.mk ((Function.mk [none]).code ++
      [some (Code.mk (SEXP.var "x") [BC.ldvar (SEXP.var "x"), BC.ret] [])])) 1 (by decide)
  have hargs : compileArgs (Heap.mk []) (Function.mk [none]) Example.args [] [] =
      some (Heap.mk [(SEXP.lit 1, 2)], Example.function, [1, 2],
        [R_NilValue, SEXP.var "y"]) := by
    unfold Example.args
    rw [compileArgs_cons, hx]
    simp only [compileArgs_cons, hy, compileArgs_nil]
    rfl
  rw [compileCall_eq_some]
  exact ⟨Heap.mk [], Function.mk [none], Example.stream.emit (BC.ldfun (SEXP.var "f")), [1, 2],
    [R_NilValue, SEXP.var "y"], rfl, hargs, by decide, rfl⟩

theorem compileCall_promises_witness :
    compileCall (Heap.mk []) (Function.mk [none]) Example.stream Example.call (SEXP.var "f")
        Example.args =
      some (Heap.mk [(SEXP.lit 1, 2)], Example.function, Example.streamOut) ∧
    ∃ callArgs names callee,
      Example.streamOut.code = Example.stream.code ++ callee ++ [BC.call callArgs names] ∧
      (((SEXP.var "f").isSym = true ∧ callee = [BC.ldfun (SEXP.var "f")]) ∨
        ((SEXP.var "f").isSym = false ∧ ∃ h1 f1 cs1,
          compileExpr (Heap.mk []) (Function.mk [none]) Example.stream (SEXP.var "f") =
            some (h1, f1, cs1) ∧
          cs1.code ++ [BC.isfun] = Example.stream.code ++ callee)) ∧
      callArgs.length = Example.args.length ∧
      callArgs.Pairwise (fun a b => a < b) ∧ callArgs.Nodup ∧
      List.Forall₂ (fun p idx => Example.function.HoldsLowering p.1 idx)
        Example.args.toList callArgs :=
  ⟨Example.compileCall_run,
    compileCall_promises (Heap.mk []) (Function.mk [none]) Example.stream Example.call
      (SEXP.var "f") Example.args (Heap.mk [(SEXP.lit 1, 2)]) Example.function
      Example.streamOut Example.compileCall_run⟩

/-! ## C3: formals -/

theorem compileFormals_loop_spec (MISSING_ARG_OFFSET : Nat) (formals : RList) (h : Heap)
    (f : Function) (acc : List Nat) (h' : Heap) (f' : Function) (res : List Nat)
    (H : compileFormals.loop MISSING_ARG_OFFSET h f formals acc = some (h', f', res)) :
    res = acc ++ formalEntries MISSING_ARG_OFFSET f.size formals ∧
      Grows f f' (formalSlots formals) ∧
      List.Forall₂
        (fun p entry =>
          if p.1.isMissingArg = true then entry = MISSING_ARG_OFFSET
          else f'.HoldsLowering p.1 entry)
        formals.toList (formalEntries MISSING_ARG_OFFSET f.size formals) := by
  induction formals using RList.induction generalizing h f acc with
  | hnil =>
    simp only [compileFormals.loop, Option.some.injEq, Prod.mk.injEq] at H
    obtain ⟨_, a, b⟩ := H
    subst a b
    exact ⟨by simp [formalEntries], by simpa [formalSlots] using Grows.refl f,
      by simp [RList.toList, formalEntries]⟩
  | hcons arg tag rest ih =>
    simp only [compileFormals.loop] at H
    by_cases hm : arg.isMissingArg = true
    · simp only [hm, Bool.not_true, Bool.false_eq_true, if_false] at H
      obtain ⟨hres, hg, hall⟩ := ih h f _ H
      refine ⟨?_, ?_, ?_⟩
      · rw [hres]; simp [formalEntries, hm]
      · simpa [formalSlots, hm] using hg
      · simp only [RList.toList, formalEntries, hm, if_true]
        exact List.Forall₂.cons (by simp [hm]) hall
    · have hm' : arg.isMissingArg = false := by simpa using hm
      simp only [hm', Bool.not_false, if_true] at H
      split at H
      · cases H
      · rename_i h1 f1 prom hp
        obtain ⟨hidx, hg1⟩ := compilePromise_grows h f arg h1 f1 prom hp
        have hhold := compilePromise_holds h f arg h1 f1 prom hp
        have hs1 := hg1.size_eq
        obtain ⟨hres, hg, hall⟩ := ih h1 f1 _ H
        rw [hs1] at hres hall
        refine ⟨?_, ?_, ?_⟩
        · rw [hres, hidx]; simp [formalEntries, hm']
        · have := hg1.trans hg
          simpa [formalSlots, hm'] using this
        · simp only [RList.toList, formalEntries, hm', Bool.false_eq_true, if_false]
          refine List.Forall₂.cons ?_ hall
          simp only [hm', Bool.false_eq_true, if_false]
          rw [← hidx]
          exact hhold.of_grows (by omega) hg

theorem formalEntries_length (MISSING_ARG_OFFSET : Nat) (formals : RList) (base : Nat) :
    (formalEntries MISSING_ARG_OFFSET base formals).length = formals.length := by
  induction formals using RList.induction generalizing base with
  | hnil => rfl
  | hcons arg tag rest ih =>
    simp only [formalEntries, RList.length]
    split_ifs <;> simp [ih]

/-- C3 (amended): `compileFormals` returns one entry per parameter, in
parameter order. A parameter whose default is the missing-argument sentinel
gets `MISSING_ARG_OFFSET` and takes no slot. Every other parameter gets the
index of the slot holding the promise Code of its default, the first free
index at that point, and takes one slot for that Code plus one for each call
argument nested in the default (exactly one when the default contains no
call). -/
theorem compileFormals_entries (MISSING_ARG_OFFSET : Nat) (h : Heap) (f : Function)
    (formals : RList) (h' : Heap) (f' : Function) (res : List Nat)
    (H : compileFormals MISSING_ARG_OFFSET h f formals = some (h', f', res)) :
    res.length = formals.length ∧
      List.Forall₂
        (fun p entry =>
          if p.1.isMissingArg = true then entry = MISSING_ARG_OFFSET
          else f'.HoldsLowering p.1 entry)
        formals.toList res ∧
      res = formalEntries MISSING_ARG_OFFSET f.size formals ∧
      f'.size = f.size + formalSlots formals := by
  unfold compileFormals at H
  obtain ⟨hres, hg, hall⟩ := compileFormals_loop_spec MISSING_ARG_OFFSET formals h f [] h' f' res H
  simp only [List.nil_append] at hres
  subst hres
  exact ⟨formalEntries_length _ _ _, hall, rfl, hg.size_eq⟩

theorem Example.compileFormals_run :
    compileFormals 65535 (Heap.mk []) Function.empty Example.formals =
      some (Heap.mk [(SEXP.lit 1, 2)],
        Function.mk [some (Code.mk (SEXP.lit 1) [BC.push (SEXP.lit 1), BC.ret] [])],
        [0, 65535]) := by
  simp [Example.formals, compileFormals, compileFormals.loop, Function.empty,
    compilePromise, compileExpr, CodeStream.create,
    Function.next, CodeStream.finalize, Function.addCode, compileConst, SET_NAMED,
    SEXP.isMissingArg, R_MissingArg,
    CodeStream.emit, SEXP.var, MAX_FUN_IDX_eq, to_fun_idx_t, sizeof_fun_idx_t]

theorem compileFormals_entries_witness :
    compileFormals 65535 (Heap.mk []) Function.empty Example.formals =
      some (Heap.mk [(SEXP.lit 1, 2)],
        Function.mk [some (Code.mk (SEXP.lit 1) [BC.push (SEXP.lit 1), BC.ret] [])],
        [0, 65535]) ∧
    ([0, 65535].length = Example.formals.length ∧
      List.Forall₂
        (fun p entry =>
          if p.1.isMissingArg = true then entry = 65535
          else (Function.mk [some (Code.mk (SEXP.lit 1) [BC.push (SEXP.lit 1), BC.ret] [])]
            ).HoldsLowering p.1 entry)
        Example.formals.toList [0, 65535] ∧
      [0, 65535] = formalEntries 65535 Function.empty.size Example.formals ∧
      (Function.mk [some (Code.mk (SEXP.lit 1) [BC.push (SEXP.lit 1), BC.ret] [])]).size =
        Function.empty.size + formalSlots Example.formals) :=
  ⟨Example.compileFormals_run,
    compileFormals_entries 65535 (Heap.mk []) Function.empty Example.formals
      (Heap.mk [(SEXP.lit 1, 2)])
      (Function.mk [some (Code.mk (SEXP.lit 1) [BC.push (SEXP.lit 1), BC.ret] [])])
      [0, 65535] Example.compileFormals_run⟩

/-- C3 as stated fails: the one parameter of `(a = g(x))` has a default, and
compiling it takes two slots, not one (the promise of `g(x)` and the promise
of its argument `x`). -/
theorem compileFormals_entries_counterexample :
    Example.formalsCall.length = 1 ∧
    compileFormals 65535 (Heap.mk []) Function.empty Example.formalsCall =
      some (Heap.mk [],
        Function.mk
          [some (Code.mk
            (SEXP.lang (SEXP.var "g") (RList.cons (SEXP.var "x") R_NilValue RList.nil))
            [BC.ldfun (SEXP.var "g"), BC.call [1] [R_NilValue], BC.ret]
            [(2, SEXP.lang (SEXP.var "g") (RList.cons (SEXP.var "x") R_NilValue RList.nil))]),
           some (Code.mk (SEXP.var "x") [BC.ldvar (SEXP.var "x"), BC.ret] [])],
        [0]) ∧
    (Function.mk
          [some (Code.mk
            (SEXP.lang (SEXP.var "g") (RList.cons (SEXP.var "x") R_NilValue RList.nil))
            [BC.ldfun (SEXP.var "g"), BC.call [1] [R_NilValue], BC.ret]
            [(2, SEXP.lang (SEXP.var "g") (RList.cons (SEXP.var "x") R_NilValue RList.nil))]),
           some (Code.mk (SEXP.var "x") [BC.ldvar (SEXP.var "x"), BC.ret] [])]).size ≠
      Function.empty.size + 1 := by
  refine ⟨rfl, ?_, by decide⟩
  have hx := compilePromise_var (Heap.mk []) (Function.mk (Function.empty.code ++ [none])) "x"
    (by decide)
  have hargs : compileArgs (Heap.mk []) (Function.mk (Function.empty.code ++ [none]))
      (RList.cons (SEXP.var "x") R_NilValue RList.nil) [] [] =
      some (Heap.mk [],
        Function.mk [none, some (Code.mk (SEXP.var "x") [BC.ldvar (SEXP.var "x"), BC.ret] [])],
        [1], [R_NilValue]) := by
    rw [compileArgs_cons, hx]
    simp only [compileArgs_nil]
    rfl
  have hp := compilePromise_call_sym (Heap.mk []) Function.empty (SEXP.var "g")
    (RList.cons (SEXP.var "x") R_NilValue RList.nil) _ _ _ _ rfl (by decide) hargs (by decide)
  unfold compileFormals Example.formalsCall
  rw [compileFormals.loop]
  simp only [SEXP.isMissingArg, Bool.not_false, if_true, hp, compileFormals.loop]
  rfl

/-! ## C4: where the body is placed -/

theorem Compiler.finalize.compile_eq_some (MISSING_ARG_OFFSET : Nat) (h : Heap) (exp : SEXP)
    (formals : RList) (h' : Heap) (f : Function) (formProm : List Nat) (idx : Nat)
    (H : Compiler.finalize.compile MISSING_ARG_OFFSET h exp formals =
      some (h', f, formProm, idx)) :
    ∃ h1 f1, compileFormals MISSING_ARG_OFFSET h Function.empty formals =
        some (h1, f1, formProm) ∧
      compilePromise h1 f1 exp = some (h', f, idx) := by
  unfold Compiler.finalize.compile at H
  split at H
  · cases H
  · rename_i h1 f1 fp hform
    split at H
    · cases H
    · rename_i f2 cs hc
      rw [CodeStream.create_eq_some] at hc
      obtain ⟨hlt, hf2, hcs⟩ := hc
      subst hf2 hcs
      split at H
      · cases H
      · rename_i h2 f3 cs1 he
        split at H
        · cases H
        · rename_i f4 i hfin
          simp only [Option.some.injEq, Prod.mk.injEq] at H
          obtain ⟨a, b, c, d⟩ := H
          subst a b c d
          exact ⟨h1, f1, hform, (compilePromise_eq_some h1 f1 exp _ _ _).2
            ⟨f3, cs1, hlt, he, hfin⟩⟩

theorem formalSlots_eq_zero (formals : RList) :
    formalSlots formals = 0 ↔ ∀ p ∈ formals.toList, p.1.isMissingArg = true := by
  induction formals using RList.induction with
  | hnil => simp [formalSlots, RList.toList]
  | hcons arg tag rest ih =>
    simp only [formalSlots, RList.toList, List.mem_cons, forall_eq_or_imp, Nat.add_eq_zero, ih]
    by_cases hm : arg.isMissingArg = true
    · simp [hm]
    · simp [hm]

/-- C4 (amended): after the compilation steps of `finalize` the Code of the
function body is in the slot whose index is the number of slots the formals
took; that is slot 0 exactly when every parameter's default is the
missing-argument sentinel. The body's Code is the lowering of the body followed
by `ret`, the index returned for it is that slot, and every other slot of the
Function holds promise code. -/
theorem finalize_body_slot (MISSING_ARG_OFFSET : Nat) (h : Heap) (exp : SEXP)
    (formals : RList) (h' : Heap) (f : Function) (formProm : List Nat) (idx : Nat)
    (H : Compiler.finalize.compile MISSING_ARG_OFFSET h exp formals =
      some (h', f, formProm, idx)) :
    idx = formalSlots formals ∧ f.HoldsLowering exp idx ∧
      (idx = 0 ↔ ∀ p ∈ formals.toList, p.1.isMissingArg = true) ∧
      f.size = formalSlots formals + 1 + exp.numProms ∧
      (∀ j, j < f.size → j ≠ idx → PromSlot f j) := by
  obtain ⟨h1, f1, hform, hprom⟩ :=
    Compiler.finalize.compile_eq_some MISSING_ARG_OFFSET h exp formals h' f formProm idx H
  unfold compileFormals at hform
  obtain ⟨_, hg1, _⟩ :=
    compileFormals_loop_spec MISSING_ARG_OFFSET formals h Function.empty [] h1 f1 formProm hform
  have hs1 : f1.size = formalSlots formals := by
    have := hg1.size_eq
    simpa [Function.size, Function.empty] using this
  obtain ⟨hidx, hg2⟩ := compilePromise_grows h1 f1 exp h' f idx hprom
  have hs2 := hg2.size_eq
  have hidx' : idx = formalSlots formals := by rw [hidx, hs1]
  refine ⟨hidx', compilePromise_holds h1 f1 exp h' f idx hprom, ?_, by omega, ?_⟩
  · rw [hidx', formalSlots_eq_zero]
  · intro j hj hne
    by_cases hlt : j < f1.size
    · obtain ⟨_, _, _, hp⟩ := hg1
      exact (hp j (Nat.zero_le _) hlt).of_slot_eq (hg2.slot_eq hlt)
    · obtain ⟨l, hl, hn, hp⟩ := hg2
      obtain ⟨e0, h0, f0, h1', f1', hc, hslot⟩ := hp j (by omega) hj
      exact ⟨e0, h0, f0, h1', f1', hc, hslot⟩

theorem Example.finalize_run :
    Compiler.finalize.compile 65535 (Heap.mk []) (SEXP.var "a") Example.formals =
      some (Heap.mk [(SEXP.lit 1, 2)],
        Function.mk [some (Code.mk (SEXP.lit 1) [BC.push (SEXP.lit 1), BC.ret] []),
          some (Code.mk (SEXP.var "a") [BC.ldvar (SEXP.var "a"), BC.ret] [])],
        [0, 65535], 1) := by
  simp [Compiler.finalize.compile, Example.formals, compileFormals, compileFormals.loop,
    Function.empty, compilePromise, compileExpr, CodeStream.create,
    Function.next, CodeStream.finalize, Function.addCode, compileConst, SET_NAMED,
    compileGetvar, DDVAL, SEXP.isMissingArg, R_MissingArg,
    CodeStream.emit, SEXP.var, MAX_FUN_IDX_eq, to_fun_idx_t, sizeof_fun_idx_t]

theorem finalize_body_slot_witness :
    Compiler.finalize.compile 65535 (Heap.mk []) (SEXP.var "a") Example.formals =
      some (Heap.mk [(SEXP.lit 1, 2)],
        Function.mk [some (Code.mk (SEXP.lit 1) [BC.push (SEXP.lit 1), BC.ret] []),
          some (Code.mk (SEXP.var "a") [BC.ldvar (SEXP.var "a"), BC.ret] [])],
        [0, 65535], 1) ∧
    1 = formalSlots Example.formals ∧
    (Function.mk [some (Code.mk (SEXP.lit 1) [BC.push (SEXP.lit 1), BC.ret] []),
      some (Code.mk (SEXP.var "a") [BC.ldvar (SEXP.var "a"), BC.ret] [])]).HoldsLowering
        (SEXP.var "a") 1 :=
  ⟨Example.finalize_run,
    (finalize_body_slot 65535 (Heap.mk []) (SEXP.var "a") Example.formals
      (Heap.mk [(SEXP.lit 1, 2)])
      (Function.mk [some (Code.mk (SEXP.lit 1) [BC.push (SEXP.lit 1), BC.ret] []),
        some (Code.mk (SEXP.var "a") [BC.ldvar (SEXP.var "a"), BC.ret] [])])
      [0, 65535] 1 Example.finalize_run).1,
    (finalize_body_slot 65535 (Heap.mk []) (SEXP.var "a") Example.formals
      (Heap.mk [(SEXP.lit 1, 2)])
      (Function.mk [some (Code.mk (SEXP.lit 1) [BC.push (SEXP.lit 1), BC.ret] []),
        some (Code.mk (SEXP.var "a") [BC.ldvar (SEXP.var "a"), BC.ret] [])])
      [0, 65535] 1 Example.finalize_run).2.1⟩

/-- C4 as stated fails: for the formals `(a = 1, b)` and the body `a`, slot 0
holds the promise Code of the default `1`; the body's Code is in slot 1. -/
theorem finalize_body_slot_counterexample :
    Compiler.finalize.compile 65535 (Heap.mk []) (SEXP.var "a") Example.formals =
      some (Heap.mk [(SEXP.lit 1, 2)],
        Function.mk [some (Code.mk (SEXP.lit 1) [BC.push (SEXP.lit 1), BC.ret] []),
          some (Code.mk (SEXP.var "a") [BC.ldvar (SEXP.var "a"), BC.ret] [])],
        [0, 65535], 1) ∧
    (Function.mk [some (Code.mk (SEXP.lit 1) [BC.push (SEXP.lit 1), BC.ret] []),
      some (Code.mk (SEXP.var "a") [BC.ldvar (SEXP.var "a"), BC.ret] [])]).slot 0 =
        some (some (Code.mk (SEXP.lit 1) [BC.push (SEXP.lit 1), BC.ret] [])) ∧
    (Function.mk [some (Code.mk (SEXP.lit 1) [BC.push (SEXP.lit 1), BC.ret] []),
      some (Code.mk (SEXP.var "a") [BC.ldvar (SEXP.var "a"), BC.ret] [])]).slot 0 ≠
        some (some (Code.mk (SEXP.var "a") [BC.ldvar (SEXP.var "a"), BC.ret] [])) := by
  refine ⟨?_, rfl, ?_⟩
  · simp [Compiler.finalize.compile, Example.formals, compileFormals, compileFormals.loop,
      Function.empty, compilePromise, compileExpr, CodeStream.create,
      Function.next, CodeStream.finalize, Function.addCode, compileConst, SET_NAMED,
      compileGetvar, DDVAL, SEXP.isMissingArg, R_MissingArg,
      CodeStream.emit, SEXP.var, MAX_FUN_IDX_eq, to_fun_idx_t, sizeof_fun_idx_t]
  · simp [Function.slot, SEXP.var]

/-! ## C11: filling a slot -/

theorem Function.addCode_eq_some (f f' : Function) (pos : Nat) (c : Code) :
    f.addCode pos c = some f' ↔
      pos < f.size ∧ f' = Function.mk (f.code.set pos (some c)) := by
  unfold Function.addCode Function.size
  by_cases hlt : pos < f.code.length
  · simp only [hlt, if_true, Option.some.injEq, true_and]
    exact ⟨fun a => a.symm, fun a => a.symm⟩
  · simp [hlt]

/-- C11: `addCode(pos, c)` on a Function with `s` slots succeeds exactly when
`pos < s`. Then slot `pos` holds `c`, there are still `s` slots and every other
slot is as before. When `pos >= s` it fails, and no Function is filled. -/
theorem Function.addCode_fills (f : Function) (pos : Nat) (c : Code) :
    (pos < f.size ∧ ∃ f', f.addCode pos c = some f' ∧ f'.size = f.size ∧
        f'.slot pos = some (some c) ∧ ∀ j, j ≠ pos → f'.slot j = f.slot j) ∨
      (f.size ≤ pos ∧ f.addCode pos c = none) := by
  by_cases hlt : pos < f.size
  · refine Or.inl ⟨hlt, Function.mk (f.code.set pos (some c)), ?_, ?_, ?_, ?_⟩
    · exact (Function.addCode_eq_some f _ pos c).2 ⟨hlt, rfl⟩
    · simp [Function.size]
    · unfold Function.size at hlt
      simp [Function.slot, hlt]
    · intro j hj
      simp [Function.slot, List.getElem?_set_ne (Ne.symm hj)]
  · refine Or.inr ⟨by omega, ?_⟩
    unfold Function.addCode
    unfold Function.size at hlt
    simp [hlt]

/-! ## C12: the size bound -/

theorem Function.run_bound (ops : List Function.Op) (f f' : Function) (is : List Nat)
    (hf : f.size < MAX_FUN_IDX) (H : f.run ops = some (f', is)) :
    f'.size < MAX_FUN_IDX ∧ f.size ≤ f'.size ∧ is = List.range' f.size (f'.size - f.size) := by
  induction ops generalizing f is with
  | nil =>
    simp only [Function.run, Option.some.injEq, Prod.mk.injEq] at H
    obtain ⟨a, b⟩ := H
    subst a b
    simp [hf]
  | cons op ops ih =>
    cases op with
    | next =>
      simp only [Function.run] at H
      split at H
      · cases H
      · rename_i f1 i hn
        split at H
        · cases H
        · rename_i f2 js hr
          simp only [Option.some.injEq, Prod.mk.injEq] at H
          obtain ⟨a, b⟩ := H
          subst a b
          rw [Function.next_eq_some] at hn
          obtain ⟨hlt, hf1, hi⟩ := hn
          have h1 : f1.size = f.size + 1 := by simp [hf1, Function.size]
          obtain ⟨hb, hle, hjs⟩ := ih f1 js (by omega) hr
          refine ⟨hb, by omega, ?_⟩
          rw [hjs, hi, h1]
          have : f2.size - f.size = (f2.size - (f.size + 1)) + 1 := by omega
          rw [this, List.range'_succ]
    | addCode pos c =>
      simp only [Function.run] at H
      split at H
      · cases H
      · rename_i f1 ha
        rw [Function.addCode_eq_some] at ha
        obtain ⟨_, hf1⟩ := ha
        have h1 : f1.size = f.size := by simp [hf1, Function.size]
        have := ih f1 is (by omega) H
        rw [h1] at this
        exact this

/-- C12: after any sequence of successful `next()` and `addCode()` operations
on the empty Function the number of slots is below `MAX_FUN_IDX = 2 ^ 16`; the
indices `next()` returned are the slot positions `0, 1, ...` themselves, each
unchanged by the conversion to the 16-bit `fun_idx_t`; and a further `next()`
fails exactly when the slot count would reach `MAX_FUN_IDX`. -/
theorem Function.size_bound (ops : List Function.Op) (f : Function) (is : List Nat)
    (H : Function.empty.run ops = some (f, is)) :
    f.size < MAX_FUN_IDX ∧ MAX_FUN_IDX = 2 ^ 16 ∧ is = List.range f.size ∧
      (∀ i ∈ is, to_fun_idx_t i = i) ∧
      (f.next = none ↔ MAX_FUN_IDX ≤ f.size + 1) := by
  obtain ⟨hb, _, his⟩ := Function.run_bound ops Function.empty f is (by decide) H
  have h0 : Function.empty.size = 0 := rfl
  rw [h0, Nat.sub_zero] at his
  refine ⟨hb, by decide, ?_, ?_, Function.next_eq_none f⟩
  · rw [his, List.range_eq_range']
  · intro i hi
    rw [his, List.mem_range'_1] at hi
    unfold to_fun_idx_t sizeof_fun_idx_t
    rw [MAX_FUN_IDX_eq] at hb
    exact Nat.mod_eq_of_lt (by norm_num; omega)

theorem Function.size_bound_witness :
    Function.empty.run
        [Function.Op.next, Function.Op.addCode 0 (Code.mk (SEXP.lit 1) [BC.ret] []),
          Function.Op.next] =
      some (Function.mk [some (Code.mk (SEXP.lit 1) [BC.ret] []), none], [0, 1]) ∧
    (Function.mk [some (Code.mk (SEXP.lit 1) [BC.ret] []), none]).size < MAX_FUN_IDX ∧
    [0, 1] = List.range (Function.mk [some (Code.mk (SEXP.lit 1) [BC.ret] []), none]).size :=
  ⟨rfl,
    (Function.size_bound
      [Function.Op.next, Function.Op.addCode 0 (Code.mk (SEXP.lit 1) [BC.ret] []),
        Function.Op.next]
      (Function.mk [some (Code.mk (SEXP.lit 1) [BC.ret] []), none]) [0, 1] rfl).1,
    (Function.size_bound
      [Function.Op.next, Function.Op.addCode 0 (Code.mk (SEXP.lit 1) [BC.ret] []),
        Function.Op.next]
      (Function.mk [some (Code.mk (SEXP.lit 1) [BC.ret] []), none]) [0, 1] rfl).2.2.1⟩

/-! ## C14: the success flag of a dispatch -/

theorem DoDispatch.exec_success {σ Cursor : Type} (body : DoDispatch σ Cursor)
    (honly : body.failOnly) (s : σ) (b : Bool) (cursor : Cursor) :
    (body.exec (Dispatcher.mk s b) cursor).1.success_ =
      (b && !body.calledFail (Dispatcher.mk s b) cursor) := by
  induction body generalizing s b cursor with
  | done => simp [DoDispatch.exec, DoDispatch.calledFail]
  | fail next ih =>
    simp only [DoDispatch.exec, DoDispatch.calledFail, Dispatcher.fail]
    rw [ih honly]
    simp
  | assign v next _ => exact absurd honly (by simp [DoDispatch.failOnly])
  | dispatch inner next _ _ => exact absurd honly (by simp [DoDispatch.failOnly])
  | step k next ih =>
    simp only [DoDispatch.exec, DoDispatch.calledFail]
    rw [ih _ _ _ (honly b s cursor)]

theorem Example.doDispatch_failOnly : Example.doDispatch.failOnly := by
  intro b s cursor
  by_cases hc : cursor % 2 = 1 <;> simp [hc, DoDispatch.failOnly]

/-- C14 (amended): `dispatch(cursor)` sets the flag, runs `doDispatch` and
returns the flag as that run leaves it, with the dispatcher and the cursor as
that run leaves them; what it returns and leaves behind is the same whatever
`success_` was before, so no earlier dispatch has an influence. For an
override that writes the flag through `fail()` only (no direct assignment of
`success_`, no nested `dispatch`), it returns false exactly when the run of
`doDispatch` in this dispatch called `fail()`, and true otherwise, and so does
the next dispatch on the dispatcher and cursor it left. -/
theorem Dispatcher.dispatch_flag {σ Cursor : Type} (doDispatch : DoDispatch σ Cursor)
    (s : σ) (success_ : Bool) (cursor : Cursor) :
    (Dispatcher.dispatch doDispatch (Dispatcher.mk s success_) cursor).1 =
        (doDispatch.exec (Dispatcher.mk s true) cursor).1.success_ ∧
      (Dispatcher.dispatch doDispatch (Dispatcher.mk s success_) cursor).2 =
        doDispatch.exec (Dispatcher.mk s true) cursor ∧
      Dispatcher.dispatch doDispatch (Dispatcher.mk s success_) cursor =
        Dispatcher.dispatch doDispatch (Dispatcher.mk s (!success_)) cursor ∧
      (doDispatch.failOnly →
        (Dispatcher.dispatch doDispatch (Dispatcher.mk s success_) cursor).1 =
            (!doDispatch.calledFail (Dispatcher.mk s true) cursor) ∧
          (Dispatcher.dispatch doDispatch
              (Dispatcher.dispatch doDispatch (Dispatcher.mk s success_) cursor).2.1
              (Dispatcher.dispatch doDispatch (Dispatcher.mk s success_) cursor).2.2).1 =
            (!doDispatch.calledFail
              (Dispatcher.mk
                (Dispatcher.dispatch doDispatch (Dispatcher.mk s success_) cursor).2.1.state true)
              (Dispatcher.dispatch doDispatch (Dispatcher.mk s success_) cursor).2.2)) := by
  refine ⟨rfl, rfl, rfl, fun honly => ⟨?_, ?_⟩⟩
  · simp [Dispatcher.dispatch, DoDispatch.exec_success _ honly]
  · simp [Dispatcher.dispatch, DoDispatch.exec_success _ honly]

theorem Dispatcher.dispatch_flag_witness :
    (Dispatcher.dispatch Example.doDispatch (Dispatcher.mk 0 false) 1).1 =
        (!Example.doDispatch.calledFail (Dispatcher.mk 0 true) 1) ∧
      (Dispatcher.dispatch Example.doDispatch
          (Dispatcher.dispatch Example.doDispatch (Dispatcher.mk 0 false) 1).2.1
          (Dispatcher.dispatch Example.doDispatch (Dispatcher.mk 0 false) 1).2.2).1 =
        (!Example.doDispatch.calledFail
          (Dispatcher.mk
            (Dispatcher.dispatch Example.doDispatch (Dispatcher.mk 0 false) 1).2.1.state true)
          (Dispatcher.dispatch Example.doDispatch (Dispatcher.mk 0 false) 1).2.2) :=
  (Dispatcher.dispatch_flag Example.doDispatch 0 false 1).2.2.2 Example.doDispatch_failOnly

theorem Example.dispatch_twice :
    (Dispatcher.dispatch Example.doDispatch (Dispatcher.mk 0 true) 1).1 = false ∧
      (Dispatcher.dispatch Example.doDispatch
        (Dispatcher.dispatch Example.doDispatch (Dispatcher.mk 0 true) 1).2.1
        (Dispatcher.dispatch Example.doDispatch (Dispatcher.mk 0 true) 1).2.2).1 = true := by
  decide

/-- C14 as stated fails: an override that calls `fail()` and then calls
`dispatch` again, or assigns `success_` itself, makes `dispatch` return true
although `doDispatch` called `fail()` during this very dispatch. -/
theorem Dispatcher.dispatch_flag_counterexample :
    Example.reenter.calledFail (Dispatcher.mk 0 true) 0 = true ∧
      (Dispatcher.dispatch Example.reenter (Dispatcher.mk 0 true) 0).1 = true ∧
      Example.failThenAssign.calledFail (Dispatcher.mk 0 true) 0 = true ∧
      (Dispatcher.dispatch Example.failThenAssign (Dispatcher.mk 0 true) 0).1 = true := by
  decide

/-! ## C13: the formal list `finalize` returns -/

theorem Compiler.finalize_formals (MISSING_ARG_OFFSET : Nat)
    (vefifyFunctionLayout : Function → Bool) (optimize : Function → Function) (h : Heap)
    (exp : SEXP) (formals : RList) (h' : Heap) (res : CompilerRes)
    (H : Compiler.finalize MISSING_ARG_OFFSET vefifyFunctionLayout optimize h exp formals =
      some (h', res)) :
    res.formals = formals.toFormals := by
  unfold Compiler.finalize at H
  split at H
  · cases H
  · split_ifs at H
    simp only at H
    split_ifs at H
    simp only [Option.some.injEq, Prod.mk.injEq] at H
    rw [← H.2]

/-- C13 (the code departs from the claim): for the formals `(a = 1, b)` and the
body `a`, with an optimizer that changes nothing and a verifier that accepts,
`finalize` succeeds and the formal list of its result is the input list, the
value of `a` being the AST `1`; the reassembled list, whose value for `a` is
the promise Code found at the recorded index 0, is built and not returned. -/
theorem Compiler.finalize_formout_dropped :
    Compiler.finalize 65535 (fun _ => true) (fun f => f) (Heap.mk []) (SEXP.var "a")
        Example.formals =
      some (Heap.mk [(SEXP.lit 1, 2)],
        CompilerRes.mk
          (Function.mk [some (Code.mk (SEXP.lit 1) [BC.push (SEXP.lit 1), BC.ret] []),
            some (Code.mk (SEXP.var "a") [BC.ldvar (SEXP.var "a"), BC.ret] [])])
          [(FormalValue.sexp (SEXP.lit 1), SEXP.var "a"),
            (FormalValue.sexp R_MissingArg, SEXP.var "b")]) ∧
    Compiler.finalize.formout 65535
        (Function.mk [some (Code.mk (SEXP.lit 1) [BC.push (SEXP.lit 1), BC.ret] []),
          some (Code.mk (SEXP.var "a") [BC.ldvar (SEXP.var "a"), BC.ret] [])])
        [0, 65535] Example.formals =
      [(FormalValue.code (some (Code.mk (SEXP.lit 1) [BC.push (SEXP.lit 1), BC.ret] [])),
          SEXP.var "a"),
        (FormalValue.sexp R_MissingArg, SEXP.var "b")] ∧
    [(FormalValue.sexp (SEXP.lit 1), SEXP.var "a"),
        (FormalValue.sexp R_MissingArg, SEXP.var "b")] ≠
      Compiler.finalize.formout 65535
        (Function.mk [some (Code.mk (SEXP.lit 1) [BC.push (SEXP.lit 1), BC.ret] []),
          some (Code.mk (SEXP.var "a") [BC.ldvar (SEXP.var "a"), BC.ret] [])])
        [0, 65535] Example.formals := by
  have hform : Compiler.finalize.formout 65535
        (Function.mk [some (Code.mk (SEXP.lit 1) [BC.push (SEXP.lit 1), BC.ret] []),
          some (Code.mk (SEXP.var "a") [BC.ldvar (SEXP.var "a"), BC.ret] [])])
        [0, 65535] Example.formals =
      [(FormalValue.code (some (Code.mk (SEXP.lit 1) [BC.push (SEXP.lit 1), BC.ret] [])),
          SEXP.var "a"),
        (FormalValue.sexp R_MissingArg, SEXP.var "b")] := by
    simp [Compiler.finalize.formout, Example.formals, RList.TAG, RList.CDR, Function.slot]
  refine ⟨?_, hform, ?_⟩
  · unfold Compiler.finalize
    rw [Example.finalize_run]
    simp [RList.toFormals, Example.formals, RList.toList]
  · rw [hform]
    simp

/-! ## C17: literals -/

theorem NAMED_SET_NAMED_self (h : Heap) (x : SEXP) (v : Nat) :
    NAMED (SET_NAMED h x v) x = some v := by
  simp [NAMED, SET_NAMED]

theorem NAMED_SET_NAMED_ne (h : Heap) (x y : SEXP) (v : Nat) (hne : x ≠ y) :
    NAMED (SET_NAMED h x v) y = NAMED h y := by
  simp [NAMED, SET_NAMED, List.find?_cons, hne]

theorem compileExpr_const (h : Heap) (f : Function) (cs : CodeStream) (e : SEXP)
    (hc : e.isConst = true) :
    compileExpr h f cs e = some (SET_NAMED h e 2, f, cs.emit (BC.push e)) := by
  cases e with
  | nil => simp only [compileExpr, compileConst]
  | lit v => simp only [compileExpr, compileConst]
  | lang fn args => simp [SEXP.isConst] at hc
  | sym s => simp [SEXP.isConst] at hc
  | prom value expr env => simp [SEXP.isConst] at hc
  | bcode => simp [SEXP.isConst] at hc

/-- C17: for a node that is not a call, a symbol, an embedded-value node or a
pre-compiled node, `compileExpr` appends exactly one push of the node, leaves
the Function alone and sets the node's mark to 2, whatever it was, without
touching the mark of any other node. Lowering the node a second time appends a
second push and the mark is still 2: every mark reads as after the first
lowering. -/
theorem compileExpr_literal (h : Heap) (f : Function) (cs : CodeStream) (e : SEXP)
    (hc : e.isConst = true) :
    compileExpr h f cs e =
        some (SET_NAMED h e 2, f,
          CodeStream.mk cs.insertPoint cs.ast (cs.code ++ [BC.push e]) cs.astMap) ∧
      NAMED (SET_NAMED h e 2) e = some 2 ∧
      (∀ y, y ≠ e → NAMED (SET_NAMED h e 2) y = NAMED h y) ∧
      compileExpr (SET_NAMED h e 2) f
          (CodeStream.mk cs.insertPoint cs.ast (cs.code ++ [BC.push e]) cs.astMap) e =
        some (SET_NAMED (SET_NAMED h e 2) e 2, f,
          CodeStream.mk cs.insertPoint cs.ast (cs.code ++ [BC.push e, BC.push e]) cs.astMap) ∧
      (∀ y, NAMED (SET_NAMED (SET_NAMED h e 2) e 2) y = NAMED (SET_NAMED h e 2) y) := by
  refine ⟨?_, NAMED_SET_NAMED_self h e 2, ?_, ?_, ?_⟩
  · rw [compileExpr_const h f cs e hc]; rfl
  · intro y hy
    exact NAMED_SET_NAMED_ne h e y 2 (Ne.symm hy)
  · rw [compileExpr_const _ f _ e hc]
    simp [CodeStream.emit]
  · intro y
    by_cases hy : e = y
    · subst hy
      rw [NAMED_SET_NAMED_self, NAMED_SET_NAMED_self]
    · rw [NAMED_SET_NAMED_ne _ e y 2 hy]

theorem compileExpr_literal_witness :
    (SEXP.lit 1).isConst = true ∧
      compileExpr (Heap.mk [(SEXP.lit 1, 0)]) (Function.mk [none])
          (CodeStream.mk 0 (SEXP.lit 1) [] []) (SEXP.lit 1) =
        some (SET_NAMED (Heap.mk [(SEXP.lit 1, 0)]) (SEXP.lit 1) 2, Function.mk [none],
          CodeStream.mk 0 (SEXP.lit 1) ([] ++ [BC.push (SEXP.lit 1)]) []) ∧
      NAMED (Heap.mk [(SEXP.lit 1, 0)]) (SEXP.lit 1) = some 0 ∧
      NAMED (SET_NAMED (Heap.mk [(SEXP.lit 1, 0)]) (SEXP.lit 1) 2) (SEXP.lit 1) = some 2 :=
  ⟨rfl,
    (compileExpr_literal (Heap.mk [(SEXP.lit 1, 0)]) (Function.mk [none])
      (CodeStream.mk 0 (SEXP.lit 1) [] []) (SEXP.lit 1) rfl).1,
    by decide,
    (compileExpr_literal (Heap.mk [(SEXP.lit 1, 0)]) (Function.mk [none])
      (CodeStream.mk 0 (SEXP.lit 1) [] []) (SEXP.lit 1) rfl).2.1⟩

/-! ## C15: the codec round trip -/

theorem leBytes_length (w v : Nat) : (leBytes w v).length = w := by
  induction w generalizing v with
  | zero => rfl
  | succ w ih => simp [leBytes, ih]

theorem ofLeBytes_leBytes (w v : Nat) : ofLeBytes (leBytes w v) = v % 256 ^ w := by
  induction w generalizing v with
  | zero => simp [leBytes, ofLeBytes, Nat.mod_one]
  | succ w ih =>
    simp only [leBytes, ofLeBytes, ih]
    rw [pow_succ, Nat.mul_comm (256 ^ w) 256, Nat.mod_mul]

theorem BC_inc.read_write (bc : BC_t) (v : Nat) (rest : List Nat)
    (hop : BC_t.ofByte bc.toByte = bc) (hv : v < 256 ^ bc.immKind.width) :
    BC_inc.BC.read ((BC_inc.BC.mk bc v).write [] ++ rest) = BC_inc.BC.mk bc v ∧
      BC_inc.BC.advance ((BC_inc.BC.mk bc v).write [] ++ rest) = (BC_inc.BC.mk bc v, rest) := by
  have htake : (leBytes bc.immKind.width v ++ rest).take bc.immKind.width =
      leBytes bc.immKind.width v := by
    rw [List.take_append_of_le_length (by rw [leBytes_length])]
    exact List.take_of_length_le (by rw [leBytes_length])
  have hread : BC_inc.BC.read ((BC_inc.BC.mk bc v).write [] ++ rest) = BC_inc.BC.mk bc v := by
    simp only [BC_inc.BC.write, List.nil_append, List.cons_append, BC_inc.BC.read, hop, htake,
      ofLeBytes_leBytes, Nat.mod_eq_of_lt hv]
  refine ⟨hread, ?_⟩
  unfold BC_inc.BC.advance
  rw [hread]
  simp only [BC_inc.BC.write, List.nil_append, List.cons_append, BC_inc.BC.size, Prod.mk.injEq,
    true_and]
  rw [Nat.add_comm, List.drop_succ_cons, List.drop_append_of_le_length (by rw [leBytes_length])]
  rw [List.drop_of_length_le (by rw [leBytes_length])]
  rfl

/-- C15: for every instruction `i` made by a factory function of `BC`, reading
the bytes `write` produced for `i` gives `i` back, opcode and immediate;
`advance` gives `i` and the cursor moved past exactly `i.size()` bytes; `write`
appends `i.size()` bytes; and `i.size()` is 1 plus the width of the immediate
kind of the opcode: 4 for a pool index, 2 for a function-table index or an
argument count, 0 for `ret`, `force` and `drop`. -/
theorem BC_inc.codec_round_trip (fc : BC_inc.Factory) (buffer rest : List Nat) :
    BC_inc.BC.read (fc.make.write [] ++ rest) = fc.make ∧
      BC_inc.BC.advance (fc.make.write [] ++ rest) = (fc.make, rest) ∧
      (fc.make.write [] ++ rest).drop fc.make.size = rest ∧
      fc.make.write buffer = buffer ++ fc.make.write [] ∧
      (fc.make.write []).length = fc.make.size ∧
      fc.make.size = 1 + fc.make.bc.immKind.width ∧
      ImmKind.pool.width = 4 ∧ ImmKind.funIdx.width = 2 ∧ ImmKind.numArgs.width = 2 ∧
      BC_inc.Factory.ret.make.size = 1 ∧ BC_inc.Factory.force.make.size = 1 ∧
      BC_inc.Factory.drop.make.size = 1 := by
  have hrw : BC_inc.BC.read (fc.make.write [] ++ rest) = fc.make ∧
      BC_inc.BC.advance (fc.make.write [] ++ rest) = (fc.make, rest) := by
    cases fc <;>
      exact BC_inc.read_write _ _ rest rfl
        (by first
          | exact Nat.mod_lt _ (by decide)
          | decide)
  refine ⟨hrw.1, hrw.2, ?_, by simp [BC_inc.BC.write], ?_, rfl, rfl, rfl, rfl, rfl, rfl, rfl⟩
  · have := hrw.2
    unfold BC_inc.BC.advance at this
    rw [hrw.1] at this
    exact (Prod.mk.inj this).2
  · simp [BC_inc.BC.write, BC_inc.BC.size, leBytes_length, Nat.add_comm]

/-! ## The shape of everything the compiler writes -/

theorem compileGetvar_eq (cs : CodeStream) (name : SEXP) :
    compileGetvar cs name = cs.emit (getvarBC name) := by
  unfold compileGetvar getvarBC
  split_ifs <;> rfl

theorem SlotsLowered.of_same (f : Function) (srcs : List SEXP) : SlotsLowered f f srcs := by
  intro j h1 h2
  omega

theorem SlotsLowered.mono {f f' : Function} {a b : List SEXP} (hs : SlotsLowered f f' a)
    (hab : ∀ x ∈ a, x ∈ b) : SlotsLowered f f' b := by
  intro j h1 h2
  obtain ⟨arg, code, astMap, hm, hl, hslot⟩ := hs j h1 h2
  exact ⟨arg, code, astMap, hab arg hm, hl, hslot⟩

theorem SlotsLowered.append {f f1 f2 : Function} {a b : List SEXP} {n : Nat}
    (h1 : SlotsLowered f f1 a) (hg : Grows f1 f2 n) (h2 : SlotsLowered f1 f2 b) :
    SlotsLowered f f2 (a ++ b) := by
  intro j hj1 hj2
  by_cases hlt : j < f1.size
  · obtain ⟨arg, code, astMap, hm, hl, hslot⟩ := h1 j hj1 hlt
    exact ⟨arg, code, astMap, List.mem_append_left _ hm, hl, by rw [hg.slot_eq hlt]; exact hslot⟩
  · obtain ⟨arg, code, astMap, hm, hl, hslot⟩ := h2 j (by omega) hj2
    exact ⟨arg, code, astMap, List.mem_append_right _ hm, hl, hslot⟩

theorem compileExpr_leaf_lowered (h : Heap) (f : Function) (cs : CodeStream) (e : SEXP)
    (h' : Heap) (f' : Function) (cs' : CodeStream)
    (hl : ∀ fn args, e ≠ SEXP.lang fn args)
    (H : compileExpr h f cs e = some (h', f', cs')) :
    ∃ new, cs'.code = cs.code ++ new ∧ Lowered e new := by
  cases e with
  | lang fn args => exact absurd rfl (hl fn args)
  | sym s =>
    rw [compileExpr] at H
    simp only [Option.some.injEq, Prod.mk.injEq] at H
    obtain ⟨_, _, hcs⟩ := H
    subst hcs
    exact ⟨_, by rw [compileGetvar_eq]; rfl, Lowered.sym s⟩
  | prom value expr env =>
    rw [compileExpr] at H
    split_ifs at H
    simp only [Option.some.injEq, Prod.mk.injEq] at H
    obtain ⟨_, _, hcs⟩ := H
    subst hcs
    exact ⟨_, rfl, Lowered.prom value expr env⟩
  | bcode =>
    rw [compileExpr] at H
    cases H
  | nil =>
    simp only [compileExpr, Option.some.injEq, Prod.mk.injEq] at H
    obtain ⟨_, _, hcs⟩ := H
    subst hcs
    exact ⟨_, rfl, Lowered.const _ rfl⟩
  | lit v =>
    simp only [compileExpr, Option.some.injEq, Prod.mk.injEq] at H
    obtain ⟨_, _, hcs⟩ := H
    subst hcs
    exact ⟨_, rfl, Lowered.const _ rfl⟩

theorem SEXP.promArgs_leaf (e : SEXP) (hl : ∀ fn args, e ≠ SEXP.lang fn args) :
    e.promArgs = [] := by
  cases e <;> simp_all [SEXP.promArgs]

mutual
theorem compileExpr_lowered (h : Heap) (f : Function) (cs : CodeStream) (e : SEXP)
    (h' : Heap) (f' : Function) (cs' : CodeStream)
    (H : compileExpr h f cs e = some (h', f', cs')) :
    (∃ new, cs'.code = cs.code ++ new ∧ Lowered e new) ∧ SlotsLowered f f' e.promArgs ∧
      (f.size < MAX_FUN_IDX → f'.size < MAX_FUN_IDX) := by
  by_cases hl : ∃ fn args, e = SEXP.lang fn args
  · obtain ⟨fn, args, he⟩ := hl
    subst he
    rw [compileExpr] at H
    have := compileCall_lowered h f cs (SEXP.lang fn args) fn args h' f' cs' H
    simpa [SEXP.promArgs] using this
  · have hl' : ∀ fn args, e ≠ SEXP.lang fn args := fun fn args he => hl ⟨fn, args, he⟩
    obtain ⟨hf, _, _, _⟩ := compileExpr_leaf h f cs e h' f' cs' hl' H
    subst hf
    exact ⟨compileExpr_leaf_lowered h f' cs e h' f' cs' hl' H, SlotsLowered.of_same _ _,
      fun hlt => hlt⟩
termination_by 2 * sizeOf e
theorem compileCall_lowered (h : Heap) (f : Function) (cs : CodeStream) (ast fn : SEXP)
    (args : RList) (h' : Heap) (f' : Function) (cs' : CodeStream)
    (H : compileCall h f cs ast fn args = some (h', f', cs')) :
    (∃ new, cs'.code = cs.code ++ new ∧ Lowered (SEXP.lang fn args) new) ∧
      SlotsLowered f f' (fn.promArgs ++ args.promArgs) ∧
      (f.size < MAX_FUN_IDX → f'.size < MAX_FUN_IDX) := by
  rw [compileCall_eq_some] at H
  obtain ⟨h1, f1, cs1, callArgs, names, hc, ha, _, hcs⟩ := H
  subst hcs
  obtain ⟨hs2, hb2, _⟩ := compileArgs_lowered h1 f1 args [] [] h' f' callArgs names ha
  have hg2 := compileArgs_grows h1 f1 args [] [] h' f' callArgs names ha
  have hlen := (compileArgs_names args h1 f1 [] [] h' f' callArgs names ha).2
  simp only [List.length_nil, Nat.zero_add] at hlen
  unfold compileCallee at hc
  by_cases hs : fn.isSym = true
  · rw [if_pos hs] at hc
    simp only [Option.some.injEq, Prod.mk.injEq] at hc
    obtain ⟨a, b, c⟩ := hc
    subst a b c
    refine ⟨⟨[BC.ldfun fn, BC.call callArgs names], by simp [CodeStream.addAst, CodeStream.emit],
      Lowered.callSym fn args callArgs names hs hlen⟩, ?_, hb2⟩
    exact hs2.mono (fun x hx => List.mem_append_right _ hx)
  · rw [if_neg hs] at hc
    split at hc
    · cases hc
    · rename_i h1' f1' cs1' he
      simp only [Option.some.injEq, Prod.mk.injEq] at hc
      obtain ⟨a, b, c⟩ := hc
      subst a b c
      obtain ⟨⟨new, hnew, hlow⟩, hs1, hb1⟩ := compileExpr_lowered h f cs fn _ _ _ he
      refine ⟨⟨new ++ [BC.isfun, BC.call callArgs names], by
        simp [CodeStream.addAst, CodeStream.emit, hnew],
        Lowered.callExpr fn args new callArgs names (by simpa using hs) hlow hlen⟩,
        hs1.append hg2 hs2, fun hlt => hb2 (hb1 hlt)⟩
termination_by 2 * (sizeOf fn + sizeOf args) + 1
theorem compileArgs_lowered (h : Heap) (f : Function) (args : RList) (callArgs : List Nat)
    (names : List SEXP) (h' : Heap) (f' : Function) (callArgs' : List Nat)
    (names' : List SEXP)
    (H : compileArgs h f args callArgs names = some (h', f', callArgs', names')) :
    SlotsLowered f f' args.promArgs ∧ (f.size < MAX_FUN_IDX → f'.size < MAX_FUN_IDX) ∧
      (args = RList.nil ∨ f'.size < MAX_FUN_IDX) := by
  cases args with
  | nil =>
    rw [compileArgs_nil] at H
    simp only [Option.some.injEq, Prod.mk.injEq] at H
    obtain ⟨_, hf, _⟩ := H
    subst hf
    exact ⟨SlotsLowered.of_same _ _, fun hlt => hlt, Or.inl rfl⟩
  | cons arg tag rest =>
    rw [compileArgs_cons_eq_some] at H
    obtain ⟨h1, f1, prom, hp, H⟩ := H
    obtain ⟨hs1, hb1⟩ := compilePromise_lowered h f arg h1 f1 prom hp
    obtain ⟨hs2, hb2, _⟩ := compileArgs_lowered h1 f1 rest _ _ h' f' callArgs' names' H
    have hg2 := compileArgs_grows h1 f1 rest _ _ h' f' callArgs' names' H
    refine ⟨?_, fun _ => hb2 hb1, Or.inr (hb2 hb1)⟩
    have := hs1.append hg2 hs2
    simpa [RList.promArgs] using this
termination_by 2 * sizeOf args
theorem compilePromise_lowered (h : Heap) (f : Function) (e : SEXP) (h' : Heap)
    (f' : Function) (idx : Nat) (H : compilePromise h f e = some (h', f', idx)) :
    SlotsLowered f f' (e :: e.promArgs) ∧ f'.size < MAX_FUN_IDX := by
  obtain ⟨hidx, hg⟩ := compilePromise_grows h f e h' f' idx H
  rw [compilePromise_eq_some] at H
  obtain ⟨f2, cs1, hlt, he, hfin⟩ := H
  obtain ⟨⟨new, hnew, hlow⟩, hs, hb⟩ := compileExpr_lowered h _ _ e h' f2 cs1 he
  obtain ⟨_, hip, hast, _⟩ := compileExpr_grows h _ _ e h' f2 cs1 he
  simp only at hast hnew
  rw [CodeStream.finalize_eq_some] at hfin
  obtain ⟨hlt2, hf3, _⟩ := hfin
  have hins : (cs1.emit BC.ret).insertPoint = f.size := hip
  rw [hins] at hf3 hlt2
  have hsz : f'.size = f2.size := by simp [Function.size, hf3]
  refine ⟨?_, ?_⟩
  · intro j hj1 hj2
    by_cases hj : j = f.size
    · subst hj
      refine ⟨e, new, cs1.astMap, List.mem_cons_self _ _, hlow, ?_⟩
      rw [hf3]
      unfold Function.size at hlt2
      simp [Function.slot, Function.size, CodeStream.emit, hlt2, hast, hnew]
    · have hslot : f'.slot j = f2.slot j := by
        simp only [Function.slot, hf3]
        simp [List.getElem?_set_ne (Ne.symm hj)]
      obtain ⟨arg, code, astMap, hm, hl, hsl⟩ := hs j (by
        simp only [Function.size, List.length_append, List.length_singleton] at hj hj1 ⊢
        omega) (by omega)
      exact ⟨arg, code, astMap, List.mem_cons_of_mem _ hm, hl, by rw [hslot]; exact hsl⟩
  · rw [hsz]
    exact hb (by simp [Function.size]; unfold Function.size at hlt; omega)
termination_by 2 * sizeOf e + 1
end

/-! ## C18: a single, trailing `ret` -/

theorem getvarBC_isRet (name : SEXP) : (getvarBC name).isRet = false := by
  unfold getvarBC
  split_ifs <;> rfl

theorem Lowered.no_ret {e : SEXP} {code : List BC} (hl : Lowered e code) :
    code.countP BC.isRet = 0 := by
  induction hl with
  | sym s => simp [getvarBC_isRet]
  | prom value expr env => simp [BC.isRet]
  | const e hc => simp [BC.isRet]
  | callSym fn args callArgs names hs hl => simp [BC.isRet]
  | callExpr fn args code callArgs names hs hfn hl ih =>
    rw [List.countP_append, ih]
    simp [BC.isRet]

theorem Lowered.sealed {e : SEXP} {code : List BC} (hl : Lowered e code) :
    (code ++ [BC.ret]).countP BC.isRet = 1 ∧ (code ++ [BC.ret]).getLast? = some BC.ret := by
  refine ⟨?_, by simp⟩
  rw [List.countP_append, hl.no_ret]
  simp [BC.isRet]

theorem SlotsLowered.single_ret {f f' : Function} {srcs : List SEXP}
    (hs : SlotsLowered f f' srcs) (j : Nat) (hj1 : f.size ≤ j) (hj2 : j < f'.size) :
    ∃ c, f'.slot j = some (some c) ∧ c.bc.countP BC.isRet = 1 ∧
      c.bc.getLast? = some BC.ret := by
  obtain ⟨arg, code, astMap, _, hl, hslot⟩ := hs j hj1 hj2
  exact ⟨_, hslot, hl.sealed.1, hl.sealed.2⟩

theorem compileFormals_loop_lowered (MISSING_ARG_OFFSET : Nat) (formals : RList) (h : Heap)
    (f : Function) (acc : List Nat) (h' : Heap) (f' : Function) (res : List Nat)
    (H : compileFormals.loop MISSING_ARG_OFFSET h f formals acc = some (h', f', res)) :
    SlotsLowered f f' formals.promArgs := by
  induction formals using RList.induction generalizing h f acc with
  | hnil =>
    simp only [compileFormals.loop, Option.some.injEq, Prod.mk.injEq] at H
    obtain ⟨_, a, _⟩ := H
    subst a
    exact SlotsLowered.of_same _ _
  | hcons arg tag rest ih =>
    simp only [compileFormals.loop] at H
    by_cases hm : arg.isMissingArg = true
    · simp only [hm, Bool.not_true, Bool.false_eq_true, if_false] at H
      exact (ih h f _ H).mono (fun x hx => by
        simp only [RList.promArgs, List.mem_cons, List.mem_append]
        exact Or.inr (Or.inr hx))
    · have hm' : arg.isMissingArg = false := by simpa using hm
      simp only [hm', Bool.not_false, if_true] at H
      split at H
      · cases H
      · rename_i h1 f1 prom hp
        obtain ⟨hs1, _⟩ := compilePromise_lowered h f arg h1 f1 prom hp
        have hs2 := ih h1 f1 _ H
        obtain ⟨_, hg2, _⟩ := compileFormals_loop_spec MISSING_ARG_OFFSET rest h1 f1 _ h' f' res H
        have := hs1.append hg2 hs2
        simpa [RList.promArgs] using this

theorem Compiler.finalize.compile_lowered (MISSING_ARG_OFFSET : Nat) (h : Heap) (exp : SEXP)
    (formals : RList) (h' : Heap) (f : Function) (formProm : List Nat) (idx : Nat)
    (H : Compiler.finalize.compile MISSING_ARG_OFFSET h exp formals =
      some (h', f, formProm, idx)) :
    SlotsLowered Function.empty f (formals.promArgs ++ exp :: exp.promArgs) := by
  obtain ⟨h1, f1, hform, hprom⟩ :=
    Compiler.finalize.compile_eq_some MISSING_ARG_OFFSET h exp formals h' f formProm idx H
  unfold compileFormals at hform
  have hs1 := compileFormals_loop_lowered MISSING_ARG_OFFSET formals h Function.empty [] h1 f1
    formProm hform
  obtain ⟨hs2, _⟩ := compilePromise_lowered h1 f1 exp h' f idx hprom
  obtain ⟨_, hg2⟩ := compilePromise_grows h1 f1 exp h' f idx hprom
  exact hs1.append hg2 hs2

/-- C18: for every expression `e`, every Code object `compilePromise` seals
while lowering `e` (the promise of `e` and those of the arguments nested in
it), and every Code object in the Function after the compilation steps of
`finalize` with the body `e` (the body's and the promises'), contains exactly
one `ret`, as its last instruction; and what `compileExpr` appends to a stream
for `e`, callee code included, contains no `ret`. -/
theorem sealed_single_ret (e : SEXP) :
    (∀ h f h' f' idx, compilePromise h f e = some (h', f', idx) →
        ∀ j, f.size ≤ j → j < f'.size →
          ∃ c, f'.slot j = some (some c) ∧ c.bc.countP BC.isRet = 1 ∧
            c.bc.getLast? = some BC.ret) ∧
      (∀ MISSING_ARG_OFFSET h formals h' f formProm idx,
        Compiler.finalize.compile MISSING_ARG_OFFSET h e formals = some (h', f, formProm, idx) →
        ∀ j, j < f.size →
          ∃ c, f.slot j = some (some c) ∧ c.bc.countP BC.isRet = 1 ∧
            c.bc.getLast? = some BC.ret) ∧
      (∀ h f cs h' f' cs', compileExpr h f cs e = some (h', f', cs') →
        ∃ new, cs'.code = cs.code ++ new ∧ new.countP BC.isRet = 0) := by
  refine ⟨?_, ?_, ?_⟩
  · intro h f h' f' idx H j hj1 hj2
    exact (compilePromise_lowered h f e h' f' idx H).1.single_ret j hj1 hj2
  · intro mao h formals h' f formProm idx H j hj
    exact (Compiler.finalize.compile_lowered mao h e formals h' f formProm idx H).single_ret j
      (Nat.zero_le _) hj
  · intro h f cs h' f' cs' H
    obtain ⟨⟨new, hnew, hlow⟩, _, _⟩ := compileExpr_lowered h f cs e h' f' cs' H
    exact ⟨new, hnew, hlow.no_ret⟩

theorem sealed_single_ret_witness :
    Compiler.finalize.compile 65535 (Heap.mk []) (SEXP.var "a") Example.formals =
      some (Heap.mk [(SEXP.lit 1, 2)],
        Function.mk [some (Code.mk (SEXP.lit 1) [BC.push (SEXP.lit 1), BC.ret] []),
          some (Code.mk (SEXP.var "a") [BC.ldvar (SEXP.var "a"), BC.ret] [])],
        [0, 65535], 1) ∧
    ∀ j, j < (Function.mk [some (Code.mk (SEXP.lit 1) [BC.push (SEXP.lit 1), BC.ret] []),
          some (Code.mk (SEXP.var "a") [BC.ldvar (SEXP.var "a"), BC.ret] [])]).size →
      ∃ c, (Function.mk [some (Code.mk (SEXP.lit 1) [BC.push (SEXP.lit 1), BC.ret] []),
          some (Code.mk (SEXP.var "a") [BC.ldvar (SEXP.var "a"), BC.ret] [])]).slot j =
            some (some c) ∧
        c.bc.countP BC.isRet = 1 ∧ c.bc.getLast? = some BC.ret :=
  ⟨Example.finalize_run,
    (sealed_single_ret (SEXP.var "a")).2.1 65535 (Heap.mk []) Example.formals
      (Heap.mk [(SEXP.lit 1, 2)])
      (Function.mk [some (Code.mk (SEXP.lit 1) [BC.push (SEXP.lit 1), BC.ret] []),
        some (Code.mk (SEXP.var "a") [BC.ldvar (SEXP.var "a"), BC.ret] [])])
      [0, 65535] 1 Example.finalize_run⟩

/-! ## C19: the argument-count assertion never fires -/

theorem stackRun_append (callPops : Nat → Nat) (a b : List BC) (depth top : Nat) :
    stackRun callPops depth top (a ++ b) =
      match stackRun callPops depth top a with
      | none => none
      | some (d, t) => stackRun callPops d t b := by
  induction a generalizing depth top with
  | nil => simp [stackRun]
  | cons bc rest ih =>
    simp only [List.cons_append, stackRun]
    split_ifs
    · rfl
    · exact ih _ _

mutual
theorem SEXP.allCalls_promArgs (ok : Nat → Bool) : ∀ (e : SEXP), e.allCalls ok = true →
    ∀ x ∈ e.promArgs, x.allCalls ok = true
  | SEXP.lang fn args, hs, x, hx => by
    simp only [SEXP.allCalls, Bool.and_eq_true] at hs
    simp only [SEXP.promArgs, List.mem_append] at hx
    rcases hx with hx | hx
    · exact SEXP.allCalls_promArgs ok fn hs.2.1 x hx
    · exact RList.allCalls_promArgs_list ok args hs.2.2 x hx
  | SEXP.sym _, _, x, hx => by simp [SEXP.promArgs] at hx
  | SEXP.prom _ _ _, _, x, hx => by simp [SEXP.promArgs] at hx
  | SEXP.bcode, _, x, hx => by simp [SEXP.promArgs] at hx
  | SEXP.nil, _, x, hx => by simp [SEXP.promArgs] at hx
  | SEXP.lit _, _, x, hx => by simp [SEXP.promArgs] at hx
theorem RList.allCalls_promArgs_list (ok : Nat → Bool) : ∀ (args : RList),
    args.allCalls ok = true → ∀ x ∈ args.promArgs, x.allCalls ok = true
  | RList.nil, _, x, hx => by simp [RList.promArgs] at hx
  | RList.cons car tag cdr, hs, x, hx => by
    simp only [RList.allCalls, Bool.and_eq_true] at hs
    simp only [RList.promArgs, List.mem_cons, List.mem_append] at hx
    rcases hx with hx | hx | hx
    · rw [hx]; exact hs.1
    · exact SEXP.allCalls_promArgs ok car hs.1 x hx
    · exact RList.allCalls_promArgs_list ok cdr hs.2 x hx
end

theorem Lowered.stack_run (callPops : Nat → Nat) {e : SEXP} {code : List BC}
    (hl : Lowered e code) (hs : e.allCalls (fun n => decide (callPops n ≤ 1)) = true)
    (depth top : Nat) :
    ∃ d t, stackRun callPops depth top code = some (d, t) ∧ depth + 1 ≤ d := by
  induction hl generalizing depth top with
  | sym s =>
    refine ⟨depth + 1, max top (depth + 1), ?_, le_refl _⟩
    unfold getvarBC
    split_ifs <;> simp [stackRun, BC.pops, BC.pushes]
  | prom value expr env =>
    exact ⟨depth + 1, max top (depth + 1), by simp [stackRun, BC.pops, BC.pushes], le_refl _⟩
  | const e hc =>
    exact ⟨depth + 1, max top (depth + 1), by simp [stackRun, BC.pops, BC.pushes], le_refl _⟩
  | callSym fn args callArgs names hsym hlen =>
    simp only [SEXP.allCalls, Bool.and_eq_true, decide_eq_true_eq] at hs
    have hle : callPops callArgs.length ≤ 1 := by rw [hlen]; exact hs.1
    refine ⟨depth + 1 - callPops callArgs.length + 1,
      max (max top (depth + 1)) (depth + 1 - callPops callArgs.length + 1), ?_, by omega⟩
    have hnot : ¬ depth + 1 < callPops callArgs.length := by omega
    simp [stackRun, BC.pops, BC.pushes, hnot]
  | callExpr fn args code callArgs names hsym hfn hlen ih =>
    simp only [SEXP.allCalls, Bool.and_eq_true, decide_eq_true_eq] at hs
    have hle : callPops callArgs.length ≤ 1 := by rw [hlen]; exact hs.1
    obtain ⟨d, t, hrun, hd⟩ := ih hs.2.1 depth top
    refine ⟨d - callPops callArgs.length + 1,
      max (max t d) (d - callPops callArgs.length + 1), ?_, by omega⟩
    rw [stackRun_append, hrun]
    have hnot : ¬ d < callPops callArgs.length := by omega
    simp [stackRun, BC.pops, BC.pushes, hnot]

theorem Lowered.verified (callPops : Nat → Nat) {e : SEXP} {code : List BC}
    (hl : Lowered e code) (hs : e.allCalls (fun n => decide (callPops n ≤ 1)) = true) :
    ∃ m, calculateAndVerifyStack callPops (code ++ [BC.ret]) = some m := by
  obtain ⟨d, t, hrun, _⟩ := hl.stack_run callPops hs 0 0
  refine ⟨max t d, ?_⟩
  unfold calculateAndVerifyStack
  rw [List.getLast?_append, stackRun_append, hrun]
  simp [stackRun, BC.pops, BC.pushes]

theorem SlotsLowered.all_verified (callPops : Nat → Nat) {f f' : Function} {srcs : List SEXP}
    (hs : SlotsLowered f f' srcs)
    (hsrc : ∀ x ∈ srcs, x.allCalls (fun n => decide (callPops n ≤ 1)) = true) (j : Nat)
    (hj1 : f.size ≤ j) (hj2 : j < f'.size) :
    ∃ c m, f'.slot j = some (some c) ∧ calculateAndVerifyStack callPops c.bc = some m := by
  obtain ⟨arg, code, astMap, hm, hl, hslot⟩ := hs j hj1 hj2
  obtain ⟨m, hv⟩ := hl.verified callPops (hsrc arg hm)
  exact ⟨_, m, hslot, hv⟩

mutual
theorem SEXP.allCalls_of_forall (ok : Nat → Bool) (hok : ∀ n, ok n = true) :
    ∀ (e : SEXP), e.allCalls ok = true
  | SEXP.lang fn args => by
    simp only [SEXP.allCalls, Bool.and_eq_true]
    exact ⟨hok _, SEXP.allCalls_of_forall ok hok fn, RList.allCalls_of_forall_list ok hok args⟩
  | SEXP.sym _ => rfl
  | SEXP.prom _ _ _ => rfl
  | SEXP.bcode => rfl
  | SEXP.nil => rfl
  | SEXP.lit _ => rfl
theorem RList.allCalls_of_forall_list (ok : Nat → Bool) (hok : ∀ n, ok n = true) :
    ∀ (args : RList), args.allCalls ok = true
  | RList.nil => rfl
  | RList.cons car tag cdr => by
    simp only [RList.allCalls, Bool.and_eq_true]
    exact ⟨SEXP.allCalls_of_forall ok hok car, RList.allCalls_of_forall_list ok hok cdr⟩
end

theorem compilePromise_all_verified (callPops : Nat → Nat) (e : SEXP)
    (hs : e.allCalls (fun n => decide (callPops n ≤ 1)) = true) (h : Heap) (f : Function)
    (h' : Heap) (f' : Function) (idx : Nat)
    (H : compilePromise h f e = some (h', f', idx)) (j : Nat) (hj1 : f.size ≤ j)
    (hj2 : j < f'.size) :
    ∃ c m, f'.slot j = some (some c) ∧ calculateAndVerifyStack callPops c.bc = some m := by
  refine (compilePromise_lowered h f e h' f' idx H).1.all_verified callPops ?_ j hj1 hj2
  intro x hx
  rcases List.mem_cons.1 hx with hx | hx
  · rw [hx]; exact hs
  · exact SEXP.allCalls_promArgs _ e hs x hx

/-- With a check that takes the callee alone for a `call`, which is not what
the row of the table says, every Code object made for any expression passes. -/
theorem compilePromise_verified_callee_alone (e : SEXP) (h : Heap) (f : Function)
    (h' : Heap) (f' : Function) (idx : Nat)
    (H : compilePromise h f e = some (h', f', idx)) (j : Nat) (hj1 : f.size ≤ j)
    (hj2 : j < f'.size) :
    ∃ c m, f'.slot j = some (some c) ∧ calculateAndVerifyStack (fun _ => 1) c.bc = some m :=
  compilePromise_all_verified (fun _ => 1) e
    (SEXP.allCalls_of_forall _ (fun _ => by simp) e) h f h' f' idx H j hj1 hj2

end rir
